import Mathlib

/-!
Verification of the buildstream-migration docs-website selection core.

The definitions below are a shallow embedding of the Python sources
`generate_pages.py`, `migrate-assets.py` and `grab-assets.py`:

* `Semver`, `Semver.lt`, `Semver.match_semver_string`, `Semver.from_string`
  embed the `Semver` NamedTuple shared by the scripts, including the
  backtracking semantics of `re.fullmatch(r"(\d+).(\d+).(\d+)", s)`
  (note: the dots in the pattern are unescaped, so they match any
  character except a newline).
* `parseTags`, `group_releases_by_minor_versions`, `selectLoop` and
  `select_releases` embed `generate_pages.select_releases`, with Python
  dicts modelled as insertion-ordered association lists
  (`dictInsert` / `lookupDict`), `sorted(...)` modelled as a stable
  insertion sort by the code's `__lt__`, and `itertools.groupby`
  modelled by `groupByLine`.
* `download_and_extract_docs` / `publishAll` embed the main download loop
  of `generate_pages.py`, with the work and output directories as lists
  of versions.
* `get_doc_job` embeds `migrate-assets.get_doc_job`.
* `selectTrunk` is modelled from the spec (no trunk-walk code exists
  under src/).
-/

/-- Opaque GitHub release / tag handle (the `GitRelease` objects of the
scripts); only identity matters to the selection core. -/
abbrev Handle := Nat

/-- Embedding of the `Semver` NamedTuple of `generate_pages.py`
(lines 226-231): an immutable triple of non-negative integers. -/
structure Semver where
  major : Nat
  minor : Nat
  patch : Nat
deriving DecidableEq, Repr, Inhabited

/-- Embedding of `Semver.__lt__` (generate_pages.py lines 247-261):
nested comparisons on major, then minor, then patch, returning a bool. -/
def Semver.lt (s other : Semver) : Bool :=
  if s.major < other.major then
    true
  else if s.major = other.major then
    if s.minor < other.minor then
      true
    else if s.minor = other.minor then
      if s.patch < other.patch then true else false
    else false
  else false

/-- Non-strict version order derived from the code's `__lt__` the way
Python's `sorted` uses it: `a` may precede `b` iff `not (b < a)`. -/
def svLe (a b : Semver) : Prop := Semver.lt b a = false

/-! ### The version-string matcher

`re.fullmatch(r"(\d+).(\d+).(\d+)", string)` from
`Semver.match_semver_string` (generate_pages.py lines 242-245), embedded
with the regex engine's leftmost-greedy backtracking semantics.  The two
dots in the pattern are not escaped: each matches one arbitrary
character other than a newline.  `\d` is modelled as an ASCII decimal
digit.  Each `\d+` group is tried greedily (longest first) and shrunk on
failure; the final group must consume the rest of the string. -/

/-- Greedy `\d+` candidate: the maximal digit prefix. -/
def digitSpan (s : List Char) : List Char := s.takeWhile Char.isDigit

/-- Numeric value of a digit string, as Python's `int(...)` computes it
on the regex groups (leading zeros allowed). -/
def natOfDigits (l : List Char) : Nat :=
  l.foldl (fun a c => a * 10 + (c.toNat - 48)) 0

/-- Tail of the pattern after the second dot: `(\d+)` anchored at the
end of the string.  Succeeds iff the remainder is a nonempty digit
string. -/
def matchG3 (s : List Char) : Option Nat :=
  if s.isEmpty then none
  else if s.all Char.isDigit then some (natOfDigits s) else none

/-- Second unescaped dot (any char except a newline) followed by the
final group. -/
def matchSepG3 : List Char → Option Nat
  | [] => none
  | c :: rest => if c = '\n' then none else matchG3 rest

/-- Backtracking over the second `(\d+)` group.  `g2r` is the current
group candidate, reversed; on failure the last digit of the group is
given back to the remainder (where the following dot will try to match
it), until the group would become empty. -/
def tryG2 : (g2r rest : List Char) → Option (Nat × Nat)
  | [], rest =>
    match matchSepG3 rest with
    | some p => some (natOfDigits ([] : List Char).reverse, p)
    | none => none
  | [c], rest =>
    match matchSepG3 rest with
    | some p => some (natOfDigits [c].reverse, p)
    | none => none
  | c :: c2 :: t, rest =>
    match matchSepG3 rest with
    | some p => some (natOfDigits (c :: c2 :: t).reverse, p)
    | none => tryG2 (c2 :: t) (c :: rest)

/-- First unescaped dot followed by the second group (with its
backtracking) and the tail of the pattern. -/
def matchSep2 (s : List Char) : Option (Nat × Nat) :=
  match s with
  | [] => none
  | c :: rest =>
    if c = '\n' then none
    else
      match digitSpan rest with
      | [] => none
      | d :: ds => tryG2 (d :: ds).reverse (rest.drop (d :: ds).length)

/-- Backtracking over the first `(\d+)` group, analogous to `tryG2`. -/
def tryG1 : (g1r rest : List Char) → Option (Nat × Nat × Nat)
  | [], rest =>
    match matchSep2 rest with
    | some (b, p) => some (natOfDigits ([] : List Char).reverse, b, p)
    | none => none
  | [c], rest =>
    match matchSep2 rest with
    | some (b, p) => some (natOfDigits [c].reverse, b, p)
    | none => none
  | c :: c2 :: t, rest =>
    match matchSep2 rest with
    | some (b, p) => some (natOfDigits (c :: c2 :: t).reverse, b, p)
    | none => tryG1 (c2 :: t) (c :: rest)

/-- Full-match of `(\d+).(\d+).(\d+)` against a character list,
returning the integer values of the three groups on success. -/
def matchSemver (s : List Char) : Option (Nat × Nat × Nat) :=
  match digitSpan s with
  | [] => none
  | d :: ds => tryG1 (d :: ds).reverse (s.drop (d :: ds).length)

/-- Embedding of `Semver.match_semver_string` (generate_pages.py lines
242-245). -/
def Semver.match_semver_string (string : String) : Option (Nat × Nat × Nat) :=
  matchSemver string.data

/-- Error raised by `Semver.from_string` on a malformed version string
(the `VersionError` of generate_pages.py lines 221-223). -/
inductive VersionError where
  | invalid
deriving DecidableEq, Repr

/-- Embedding of `Semver.from_string` (generate_pages.py lines
233-240): build a `Semver` from the regex groups, or raise
`VersionError`. -/
def Semver.from_string (string : String) : Except VersionError Semver :=
  match Semver.match_semver_string string with
  | some (a, b, c) => .ok ⟨a, b, c⟩
  | none => .error .invalid

/-- Shape of the strings actually accepted by
`re.fullmatch(r"(\d+).(\d+).(\d+)", s)`: three nonempty digit groups
separated by two arbitrary non-newline characters (the pattern's
unescaped dots). -/
def semverShape (s : List Char) : Prop :=
  ∃ g1 c1 g2 c2 g3, s = g1 ++ c1 :: (g2 ++ c2 :: g3) ∧
    g1 ≠ [] ∧ (∀ c ∈ g1, c.isDigit = true) ∧ c1 ≠ '\n' ∧
    g2 ≠ [] ∧ (∀ c ∈ g2, c.isDigit = true) ∧ c2 ≠ '\n' ∧
    g3 ≠ [] ∧ (∀ c ∈ g3, c.isDigit = true)

/-! ### The release catalog and selection pipeline

Embedding of `generate_pages.select_releases` (lines 54-125) and
`group_releases_by_minor_versions` (lines 128-168).  Python dicts are
modelled as insertion-ordered association lists: inserting an existing
key overwrites its value in place, a new key is appended.  Python's
`sorted` (a stable sort driven by `Semver.__lt__`) is modelled by
Mathlib's stable `List.insertionSort` over the derived relation
`pairLe`, and `itertools.groupby` by `groupByLine`. -/

/-- Insertion-ordered dictionary update, as Python `d[k] = v`. -/
def dictInsert {α β : Type} [DecidableEq α] (d : List (α × β)) (k : α) (v : β) :
    List (α × β) :=
  if d.any (fun p => p.1 == k) then
    d.map (fun p => if p.1 == k then (k, v) else p)
  else d ++ [(k, v)]

/-- Dictionary lookup, as Python `d[k]` / `d.get(k)`. -/
def lookupDict {α β : Type} [DecidableEq α] (d : List (α × β)) (k : α) :
    Option β :=
  (d.find? (fun p => p.1 == k)).map Prod.snd

/-- The `try: version = Semver.from_string(...) except VersionError:
continue` of select_releases lines 68-77. -/
def parseRelease (tag : String) : Option Semver :=
  match Semver.from_string tag with
  | .ok version => some version
  | .error _ => none

/-- One iteration of the first loop of `select_releases` (lines 68-79):
parse the tag name; on failure keep the dict unchanged (`continue`), on
success store the release under its version key. -/
def tagStep (releases : List (Semver × Handle)) (t : String × Handle) :
    List (Semver × Handle) :=
  match parseRelease t.1 with
  | none => releases
  | some version => dictInsert releases version t.2

/-- The first loop of `select_releases` (lines 64-79): build the
`releases` dict keyed by parsed `Semver`, silently skipping tags that do
not parse, and silently overwriting duplicate keys. -/
def parseTags (tags : List (String × Handle)) : List (Semver × Handle) :=
  tags.foldl tagStep []

/-- Release line of a version: its `(major, minor)` pair, the groupby
key of `group_releases_by_minor_versions` line 157. -/
def lineOf (v : Semver) : Nat × Nat := (v.major, v.minor)

/-- Comparison used when modelling Python's stable `sorted` on
`(Semver, GitRelease)` tuples: `a` may precede `b` iff
`not Semver.__lt__(b, a)`.  (The dict guarantees distinct `Semver`
keys, so the tuple comparison never reaches the unorderable
`GitRelease` component.) -/
def pairLe (a b : Semver × Handle) : Prop := svLe a.1 b.1

instance : DecidableRel pairLe := fun a b => by
  unfold pairLe svLe
  infer_instance

/-- Embedding of `itertools.groupby(releases, key=lambda item:
(item[0].major, item[0].minor))` (line 157): consecutive runs with
equal key, in input order. -/
def groupByLineAux (k : Nat × Nat) (acc : List (Semver × Handle)) :
    List (Semver × Handle) → List ((Nat × Nat) × List (Semver × Handle))
  | [] => [(k, acc)]
  | x :: xs =>
    if lineOf x.1 = k then groupByLineAux k (acc ++ [x]) xs
    else (k, acc) :: groupByLineAux (lineOf x.1) [x] xs

def groupByLine : List (Semver × Handle) → List ((Nat × Nat) × List (Semver × Handle))
  | [] => []
  | x :: xs => groupByLineAux (lineOf x.1) [x] xs

/-- Embedding of `group_releases_by_minor_versions` (lines 128-168):
sort the `(Semver, GitRelease)` pairs, group them by `(major, minor)`,
and build a dict mapping each group key to the sorted group. -/
def group_releases_by_minor_versions (releases : List (Semver × Handle)) :
    List ((Nat × Nat) × List (Semver × Handle)) :=
  let sortedReleases := List.insertionSort pairLe releases
  let groups := groupByLine sortedReleases
  groups.foldl (fun d g => dictInsert d g.1 (List.insertionSort pairLe g.2)) []

/-- Failure mode of `select_releases`: the Python `IndexError` raised by
`releases[-1]` / `dev_snapshots[-1]` on an empty list. -/
inductive SelectError where
  | indexError
deriving DecidableEq, Repr

/-- The selection loop of `select_releases` (lines 101-108): for each
group in dict order, append the last (greatest) release of the group to
the stable list (even minor) or to the dev-snapshot list (odd minor). -/
def selectLoop :
    List ((Nat × Nat) × List (Semver × Handle)) →
      Except SelectError (List (Semver × Handle) × List (Semver × Handle))
  | [] => .ok ([], [])
  | g :: gs =>
    match g.2.getLast? with
    | none => .error .indexError
    | some r =>
      match selectLoop gs with
      | .error e => .error e
      | .ok (stable, dev) =>
        if g.1.2 % 2 = 0 then .ok (r :: stable, dev) else .ok (stable, r :: dev)

/-- Embedding of `select_releases` (lines 54-125): parse the tags into
the releases dict, group by minor version, pick the last release of
each group into stable releases / dev snapshots, then keep only the
last dev snapshot (`dev_snapshots[-1]`, line 114 — an IndexError when
no dev line exists). -/
def select_releases (tags : List (String × Handle)) :
    Except SelectError (List (Semver × Handle) × List (Semver × Handle)) :=
  match selectLoop (group_releases_by_minor_versions (parseTags tags)) with
  | .error e => .error e
  | .ok (stable_releases, dev_snapshots) =>
    match dev_snapshots.getLast? with
    | none => .error .indexError
    | some dev_snapshot => .ok (stable_releases, [dev_snapshot])


/-- The `(Semver, handle)` pairs of the tags whose names parse, in input
order and with duplicates retained (the dict built by `parseTags`
collapses these, the later tag winning). -/
def parsedList (tags : List (String × Handle)) : List (Semver × Handle) :=
  tags.filterMap (fun t => (parseRelease t.1).map (fun version => (version, t.2)))

/-- Strict version order on pairs, used to show that a sorted list of
pairs with distinct `Semver` keys is unique. -/
def pairLt (a b : Semver × Handle) : Prop := Semver.lt a.1 b.1 = true

/-! ### The download/extract loop of `generate_pages.main` -/

/-- Failure of the download loop: the `FileNotFoundError` raised by
`tarfile.open(download_path)` (line 190) when no `docs.tgz` asset was
downloaded and no stale file exists in the work directory.  (The code
logs an error on line 188 but continues into `tarfile.open`.) -/
inductive RunError where
  | fileNotFound (version : Semver)
deriving DecidableEq, Repr

/-- Embedding of `download_and_extract_docs` (lines 171-210).  `assets`
are the release's asset names; `work` is the set of versions whose
`docs-{version}.tgz` already exists in the work directory; `out` is the
list of versions already extracted into the output directory.  An asset
named `docs.tgz` is downloaded into the work directory; then the tar
file is opened (raising if absent) and extracted into the output
directory. -/
def download_and_extract_docs (version : Semver) (assets : List String)
    (work out : List Semver) : Except RunError (List Semver × List Semver) :=
  let work2 := if "docs.tgz" ∈ assets then version :: work else work
  if version ∈ work2 then .ok (work2, out ++ [version])
  else .error (.fileNotFound version)

/-- The main loop of `generate_pages.main` (lines 38-39): download and
extract every selected release in order; an exception aborts the run,
freezing the work and output directories in their current state. -/
def publishAll :
    List (Semver × List String) → List Semver → List Semver →
      (List Semver × List Semver) × Option RunError
  | [], work, out => ((work, out), none)
  | (v, assets) :: rest, work, out =>
    match download_and_extract_docs v assets work out with
    | .error e => ((work, out), some e)
    | .ok (work2, out2) => publishAll rest work2 out2

/-! ### The artifact probe of `migrate-assets.py` -/

/-- A CI commit status, as listed by `commit.statuses.list(name="docs")`
in `migrate-assets.get_doc_job`. -/
structure CommitStatus where
  name : String
  status : String
  id : Nat
deriving DecidableEq, Repr

/-- Embedding of `get_doc_job` (migrate-assets.py lines 171-185): among
the statuses of a commit, restrict to those named `docs` and return the
first whose status is `success`, else `None`. -/
def get_doc_job (statuses : List CommitStatus) : Option CommitStatus :=
  ((statuses.filter (fun job => job.name == "docs")).find?
    (fun job => job.status == "success"))

/-- The probe decision of `download_commit_docs` (migrate-assets.py
lines 188-197): it downloads (returns True) iff `get_doc_job` found a
successful docs job. -/
def hasSuccessfulArtifact (statuses : List CommitStatus) : Bool :=
  (get_doc_job statuses).isSome

/-! ### Trunk resolution -/

/-- Failure of the trunk walk after exhausting history. -/
inductive TrunkError where
  | unresolvedTrunk
deriving DecidableEq, Repr

/-- Modelled from the spec: no trunk-walk code exists under src/
(`grab-assets.download_doc` is an empty stub), so `selectTrunk` follows
section 4.4 of the spec: starting at the trunk's head, repeatedly ask
the probe for a successful artifact at the current point; on success
return that point, otherwise move to the immediate predecessor; when a
point with no predecessor is passed, fail with UnresolvedTrunkError.
History is the explicit backward chain of trunk points, head first,
each element followed by its immediate predecessor, with the end of the
list as the explicit "no predecessor" terminal. -/
def selectTrunk (probe : Nat → Bool) : List Nat → Except TrunkError Nat
  | [] => .error .unresolvedTrunk
  | point :: older => if probe point then .ok point else selectTrunk probe older

/-! ### Spec-side selection walk (for comparison with the code) -/

/-- Written from the spec's words (section 4.3): walk a line's
candidates newest-first and resolve to the first candidate whose probe
answers true. -/
def specFirstSuccessNewestFirst (probe : Semver → Bool)
    (candidatesNewestFirst : List (Semver × Handle)) :
    Option (Semver × Handle) :=
  candidatesNewestFirst.find? (fun c => probe c.1)

/-- Lexicographic strict order on release-line keys `(major, minor)`. -/
def lex2Lt (a b : Nat × Nat) : Prop := a.1 < b.1 ∨ (a.1 = b.1 ∧ a.2 < b.2)

/-- Lexicographic order on release-line keys `(major, minor)`. -/
def lex2Le (a b : Nat × Nat) : Prop := a.1 < b.1 ∨ (a.1 = b.1 ∧ a.2 ≤ b.2)

/-- Decidable equality of run results, used to evaluate the embedded
pipeline on concrete inputs. -/
instance {e a : Type} [DecidableEq e] [DecidableEq a] : DecidableEq (Except e a) := fun x y => by
  cases x with
  | error e1 =>
    cases y with
    | error e2 =>
      exact if h : e1 = e2 then .isTrue (by rw [h]) else
        .isFalse (by intro hc; injection hc with h2; exact h h2)
    | ok v2 => exact .isFalse (by intro hc; exact Except.noConfusion hc)
  | ok v1 =>
    cases y with
    | error e2 => exact .isFalse (by intro hc; exact Except.noConfusion hc)
    | ok v2 =>
      exact if h : v1 = v2 then .isTrue (by rw [h]) else
        .isFalse (by intro hc; injection hc with h2; exact h h2)

/-! ### Theorems -/

/-- The code's comparison, unfolded to an arithmetic formula. -/
theorem Semver.lt_iff (a b : Semver) :
    Semver.lt a b = true ↔
      (a.major < b.major ∨ (a.major = b.major ∧
        (a.minor < b.minor ∨ (a.minor = b.minor ∧ a.patch < b.patch)))) := by
  unfold Semver.lt
  split_ifs <;> simp_all

theorem svLe_iff (a b : Semver) :
    svLe a b ↔
      (a.major < b.major ∨ (a.major = b.major ∧
        (a.minor < b.minor ∨ (a.minor = b.minor ∧ a.patch ≤ b.patch)))) := by
  unfold svLe
  rw [← Bool.not_eq_true, not_iff_comm, Semver.lt_iff]
  omega

theorem svLe_refl (a : Semver) : svLe a a := by
  rw [svLe_iff]; omega

theorem svLe_trans {a b c : Semver} (h1 : svLe a b) (h2 : svLe b c) :
    svLe a c := by
  rw [svLe_iff] at *; omega

theorem svLe_total (a b : Semver) : svLe a b ∨ svLe b a := by
  rw [svLe_iff, svLe_iff]; omega

theorem svLe_antisymm {a b : Semver} (h1 : svLe a b) (h2 : svLe b a) :
    a = b := by
  rw [svLe_iff] at *
  cases a; cases b
  simp_all
  omega

theorem svLt_of_svLe_ne {a b : Semver} (h1 : svLe a b) (h2 : a ≠ b) :
    Semver.lt a b = true := by
  rw [svLe_iff] at h1
  rw [Semver.lt_iff]
  have h3 : ¬(a.major = b.major ∧ a.minor = b.minor ∧ a.patch = b.patch) := by
    intro ⟨x, y, z⟩
    exact h2 (by cases a; cases b; simp_all)
  omega

theorem pairLe_isTotal : IsTotal (Semver × Handle) pairLe :=
  ⟨fun a b => svLe_total a.1 b.1⟩

theorem pairLe_isTrans : IsTrans (Semver × Handle) pairLe :=
  ⟨fun _ _ _ h1 h2 => svLe_trans h1 h2⟩

theorem pairLt_isAntisymm : IsAntisymm (Semver × Handle) pairLt :=
  ⟨fun a b h1 h2 => by
    unfold pairLt at h1 h2
    rw [Semver.lt_iff] at h1 h2
    omega⟩

/-! ### Facts about the matcher -/

theorem digitSpan_digits (s : List Char) :
    ∀ c ∈ digitSpan s, c.isDigit = true := by
  intro c hc
  exact List.mem_takeWhile_imp hc

theorem digitSpan_of_digit_prefix (g r : List Char)
    (hg : ∀ c ∈ g, c.isDigit = true) :
    g.length ≤ (digitSpan (g ++ r)).length := by
  induction g with
  | nil => simp
  | cons c g ih =>
    have hc : c.isDigit = true := hg c (List.mem_cons_self c g)
    simp only [digitSpan, List.cons_append, List.takeWhile_cons, hc,
      List.length_cons, if_true]
    have := ih (fun x hx => hg x (List.mem_cons_of_mem c hx))
    simpa [digitSpan] using Nat.succ_le_succ this

theorem digitSpan_append_stop (g : List Char) (c : Char) (r : List Char)
    (hg : ∀ x ∈ g, x.isDigit = true) (hc : c.isDigit = false) :
    digitSpan (g ++ c :: r) = g := by
  induction g with
  | nil => simp [digitSpan, List.takeWhile_cons, hc]
  | cons d g ih =>
    have hd : d.isDigit = true := hg d (List.mem_cons_self d g)
    simp only [digitSpan, List.cons_append, List.takeWhile_cons, hd, if_true]
    rw [show List.takeWhile Char.isDigit (g ++ c :: r) =
      digitSpan (g ++ c :: r) from rfl,
      ih (fun x hx => hg x (List.mem_cons_of_mem d hx))]

theorem digitSpan_split (s : List Char) :
    digitSpan s ++ s.drop (digitSpan s).length = s := by
  have h := List.takeWhile_append_dropWhile (p := Char.isDigit) (l := s)
  calc digitSpan s ++ s.drop (digitSpan s).length
      = digitSpan s ++ (digitSpan s ++ s.dropWhile Char.isDigit).drop
          (digitSpan s).length := by rw [show digitSpan s ++ s.dropWhile Char.isDigit = s from h]
    _ = digitSpan s ++ s.dropWhile Char.isDigit := by rw [List.drop_left]
    _ = s := h

theorem matchG3_sound {s : List Char} {p : Nat} (h : matchG3 s = some p) :
    s ≠ [] ∧ (∀ c ∈ s, c.isDigit = true) := by
  unfold matchG3 at h
  split_ifs at h with h1 h2
  exact ⟨by simpa using h1, fun c hc => (List.all_eq_true.mp h2) c hc⟩

theorem matchG3_complete {s : List Char} (h1 : s ≠ [])
    (h2 : ∀ c ∈ s, c.isDigit = true) :
    matchG3 s = some (natOfDigits s) := by
  unfold matchG3
  rw [if_neg (by simpa using h1), if_pos (List.all_eq_true.mpr h2)]

theorem matchSepG3_sound {s : List Char} {p : Nat}
    (h : matchSepG3 s = some p) :
    ∃ c2 g3, s = c2 :: g3 ∧ c2 ≠ '\n' ∧ g3 ≠ [] ∧
      (∀ c ∈ g3, c.isDigit = true) := by
  cases s with
  | nil => exact absurd h (by simp [matchSepG3])
  | cons c rest =>
    simp only [matchSepG3] at h
    split_ifs at h with hc
    obtain ⟨h1, h2⟩ := matchG3_sound h
    exact ⟨c, rest, rfl, hc, h1, h2⟩

theorem matchSepG3_complete {c2 : Char} {g3 : List Char} (hc : c2 ≠ '\n')
    (h1 : g3 ≠ []) (h2 : ∀ c ∈ g3, c.isDigit = true) :
    matchSepG3 (c2 :: g3) = some (natOfDigits g3) := by
  simp only [matchSepG3, if_neg hc]
  exact matchG3_complete h1 h2

theorem tryG2_sound {g2r rest : List Char} {x : Nat × Nat}
    (hne : g2r ≠ []) (hdig : ∀ c ∈ g2r, c.isDigit = true)
    (h : tryG2 g2r rest = some x) :
    ∃ g2 c2 g3, g2r.reverse ++ rest = g2 ++ c2 :: g3 ∧ g2 ≠ [] ∧
      (∀ c ∈ g2, c.isDigit = true) ∧ c2 ≠ '\n' ∧ g3 ≠ [] ∧
      (∀ c ∈ g3, c.isDigit = true) := by
  induction g2r generalizing rest with
  | nil => exact absurd rfl hne
  | cons c tl ih =>
    cases hsep : matchSepG3 rest with
    | some p =>
      obtain ⟨c2, g3, hrest, hc2, hg3, hg3d⟩ := matchSepG3_sound hsep
      refine ⟨(c :: tl).reverse, c2, g3, by rw [hrest], by simp, ?_, hc2, hg3, hg3d⟩
      intro d hd
      exact hdig d (List.mem_reverse.mp hd)
    | none =>
      cases tl with
      | nil =>
        simp [tryG2, hsep] at h
      | cons c2 t =>
        simp only [tryG2, hsep] at h
        have := ih (by simp)
          (fun d hd => hdig d (List.mem_cons_of_mem c hd)) h
        obtain ⟨g2, cc2, g3, heq, h1, h2, h3, h4, h5⟩ := this
        refine ⟨g2, cc2, g3, ?_, h1, h2, h3, h4, h5⟩
        rw [← heq]
        simp

theorem matchSep2_sound {s : List Char} {x : Nat × Nat}
    (h : matchSep2 s = some x) :
    ∃ c1 g2 c2 g3, s = c1 :: (g2 ++ c2 :: g3) ∧ c1 ≠ '\n' ∧
      g2 ≠ [] ∧ (∀ c ∈ g2, c.isDigit = true) ∧ c2 ≠ '\n' ∧
      g3 ≠ [] ∧ (∀ c ∈ g3, c.isDigit = true) := by
  cases s with
  | nil => exact absurd h (by simp [matchSep2])
  | cons c rest =>
    simp only [matchSep2] at h
    split_ifs at h with hc
    cases hds : digitSpan rest with
    | nil => rw [hds] at h; exact absurd h (by simp)
    | cons d ds =>
        rw [hds] at h
        change tryG2 (d :: ds).reverse (rest.drop (d :: ds).length) = some x at h
        have hdig : ∀ cc ∈ (d :: ds).reverse, cc.isDigit = true := by
          intro cc hcc
          exact digitSpan_digits rest cc (by rw [hds]; exact List.mem_reverse.mp hcc)
        obtain ⟨g2, c2, g3, heq, h1, h2, h3, h4, h5⟩ :=
          tryG2_sound (by simp) hdig h
        rw [List.reverse_reverse] at heq
        refine ⟨c, g2, c2, g3, ?_, hc, h1, h2, h3, h4, h5⟩
        have hr : rest = g2 ++ c2 :: g3 := by
          rw [← heq, ← hds]
          exact (digitSpan_split rest).symm
        rw [hr]

theorem tryG1_sound {g1r rest : List Char} {x : Nat × Nat × Nat}
    (hne : g1r ≠ []) (hdig : ∀ c ∈ g1r, c.isDigit = true)
    (h : tryG1 g1r rest = some x) :
    ∃ g1 c1 g2 c2 g3, g1r.reverse ++ rest = g1 ++ c1 :: (g2 ++ c2 :: g3) ∧
      g1 ≠ [] ∧ (∀ c ∈ g1, c.isDigit = true) ∧ c1 ≠ '\n' ∧
      g2 ≠ [] ∧ (∀ c ∈ g2, c.isDigit = true) ∧ c2 ≠ '\n' ∧
      g3 ≠ [] ∧ (∀ c ∈ g3, c.isDigit = true) := by
  induction g1r generalizing rest with
  | nil => exact absurd rfl hne
  | cons c tl ih =>
    cases hsep : matchSep2 rest with
    | some p =>
      obtain ⟨c1, g2, c2, g3, hrest, h0, h1, h2, h3, h4, h5⟩ :=
        matchSep2_sound hsep
      refine ⟨(c :: tl).reverse, c1, g2, c2, g3, by rw [hrest], by simp, ?_,
        h0, h1, h2, h3, h4, h5⟩
      intro d hd
      exact hdig d (List.mem_reverse.mp hd)
    | none =>
      cases tl with
      | nil =>
        simp [tryG1, hsep] at h
      | cons c2 t =>
        simp only [tryG1, hsep] at h
        have := ih (by simp)
          (fun d hd => hdig d (List.mem_cons_of_mem c hd)) h
        obtain ⟨g1, cc1, g2, cc2, g3, heq, h1, h2, h3, h4, h5, h6, h7, h8⟩ := this
        refine ⟨g1, cc1, g2, cc2, g3, ?_, h1, h2, h3, h4, h5, h6, h7, h8⟩
        rw [← heq]
        simp

theorem tryG2_some_of_sep {rest : List Char} {p : Nat} (g2r : List Char)
    (h : matchSepG3 rest = some p) :
    tryG2 g2r rest = some (natOfDigits g2r.reverse, p) := by
  match g2r with
  | [] => simp [tryG2, h]
  | [c] => simp [tryG2, h]
  | c :: c2 :: t => simp [tryG2, h]

theorem tryG2_complete {g2r rest g2 g3 : List Char} {c2 : Char}
    (heq : g2r.reverse ++ rest = g2 ++ c2 :: g3)
    (h1 : g2 ≠ []) (h2 : ∀ c ∈ g2, c.isDigit = true) (h3 : c2 ≠ '\n')
    (h4 : g3 ≠ []) (h5 : ∀ c ∈ g3, c.isDigit = true)
    (hlen : g2.length ≤ g2r.length) :
    (tryG2 g2r rest).isSome = true := by
  induction g2r generalizing rest with
  | nil =>
    simp only [List.length_nil, Nat.le_zero, List.length_eq_zero] at hlen
    exact absurd hlen h1
  | cons c tl ih =>
    cases hsep : matchSepG3 rest with
    | some p => rw [tryG2_some_of_sep _ hsep]; rfl
    | none =>
      have hne : g2.length ≠ (c :: tl).length := by
        intro hl
        have hl2 : g2.length = (c :: tl).reverse.length := by simpa using hl
        obtain ⟨he1, he2⟩ := List.append_inj heq.symm hl2
        have hsome := matchSepG3_complete h3 h4 h5
        rw [he2, hsep] at hsome
        exact absurd hsome (by simp)
      have hlt : g2.length ≤ tl.length := by
        have := Nat.lt_of_le_of_ne hlen hne
        simpa using Nat.lt_succ_iff.mp (by simpa using this)
      cases tl with
      | nil =>
        have : g2.length = 0 := Nat.le_zero.mp hlt
        exact absurd (List.length_eq_zero.mp this) h1
      | cons cc t =>
        simp only [tryG2, hsep]
        refine ih ?_ hlt
        rw [← heq]
        simp

theorem matchSep2_complete {rest g2 g3 : List Char} {c1 c2 : Char}
    (hrest : rest = g2 ++ c2 :: g3) (hc1 : c1 ≠ '\n')
    (h1 : g2 ≠ []) (h2 : ∀ c ∈ g2, c.isDigit = true) (h3 : c2 ≠ '\n')
    (h4 : g3 ≠ []) (h5 : ∀ c ∈ g3, c.isDigit = true) :
    (matchSep2 (c1 :: rest)).isSome = true := by
  simp only [matchSep2, if_neg hc1]
  have hlen : g2.length ≤ (digitSpan rest).length := by
    rw [hrest]; exact digitSpan_of_digit_prefix g2 (c2 :: g3) h2
  cases hds : digitSpan rest with
  | nil =>
    rw [hds] at hlen
    simp only [List.length_nil, Nat.le_zero, List.length_eq_zero] at hlen
    exact absurd hlen h1
  | cons d ds =>
    rw [hds] at hlen
    have hcomb : (d :: ds).reverse.reverse ++ rest.drop (d :: ds).length =
        g2 ++ c2 :: g3 := by
      rw [List.reverse_reverse, ← hds, ← hrest]
      exact digitSpan_split rest
    exact tryG2_complete hcomb h1 h2 h3 h4 h5 (by simpa using hlen)

theorem tryG1_some_of_sep {rest : List Char} {b p : Nat} (g1r : List Char)
    (h : matchSep2 rest = some (b, p)) :
    tryG1 g1r rest = some (natOfDigits g1r.reverse, b, p) := by
  match g1r with
  | [] => simp [tryG1, h]
  | [c] => simp [tryG1, h]
  | c :: c2 :: t => simp [tryG1, h]

theorem tryG1_complete {g1r rest g1 g2 g3 : List Char} {c1 c2 : Char}
    (heq : g1r.reverse ++ rest = g1 ++ c1 :: (g2 ++ c2 :: g3))
    (hg1 : g1 ≠ []) (hd1 : ∀ c ∈ g1, c.isDigit = true) (hc1 : c1 ≠ '\n')
    (h1 : g2 ≠ []) (h2 : ∀ c ∈ g2, c.isDigit = true) (h3 : c2 ≠ '\n')
    (h4 : g3 ≠ []) (h5 : ∀ c ∈ g3, c.isDigit = true)
    (hlen : g1.length ≤ g1r.length) :
    (tryG1 g1r rest).isSome = true := by
  induction g1r generalizing rest with
  | nil =>
    simp only [List.length_nil, Nat.le_zero, List.length_eq_zero] at hlen
    exact absurd hlen hg1
  | cons c tl ih =>
    cases hsep : matchSep2 rest with
    | some bp => rw [tryG1_some_of_sep _ hsep]; rfl
    | none =>
      have hne : g1.length ≠ (c :: tl).length := by
        intro hl
        have hl2 : g1.length = (c :: tl).reverse.length := by simpa using hl
        obtain ⟨he1, he2⟩ := List.append_inj heq.symm hl2
        have hsome := matchSep2_complete rfl hc1 h1 h2 h3 h4 h5
        rw [he2, hsep] at hsome
        exact absurd hsome (by simp)
      have hlt : g1.length ≤ tl.length := by
        have := Nat.lt_of_le_of_ne hlen hne
        simpa using Nat.lt_succ_iff.mp (by simpa using this)
      cases tl with
      | nil =>
        have : g1.length = 0 := Nat.le_zero.mp hlt
        exact absurd (List.length_eq_zero.mp this) hg1
      | cons cc t =>
        simp only [tryG1, hsep]
        refine ih ?_ hlt
        rw [← heq]
        simp

theorem matchSemver_isSome_iff (s : List Char) :
    (matchSemver s).isSome = true ↔ semverShape s := by
  constructor
  · intro h
    unfold matchSemver at h
    cases hds : digitSpan s with
    | nil => rw [hds] at h; simp at h
    | cons d ds =>
      rw [hds] at h
      change (tryG1 (d :: ds).reverse (s.drop (d :: ds).length)).isSome = true at h
      obtain ⟨x, hx⟩ := Option.isSome_iff_exists.mp h
      have hdig : ∀ cc ∈ (d :: ds).reverse, cc.isDigit = true := by
        intro cc hcc
        exact digitSpan_digits s cc (by rw [hds]; exact List.mem_reverse.mp hcc)
      obtain ⟨g1, c1, g2, c2, g3, heq, h1, h2, h3, h4, h5, h6, h7, h8⟩ :=
        tryG1_sound (by simp) hdig hx
      rw [List.reverse_reverse] at heq
      refine ⟨g1, c1, g2, c2, g3, ?_, h1, h2, h3, h4, h5, h6, h7, h8⟩
      rw [← heq, ← hds]
      exact (digitSpan_split s).symm
  · rintro ⟨g1, c1, g2, c2, g3, hs, h1, h2, h3, h4, h5, h6, h7, h8⟩
    unfold matchSemver
    have hlen : g1.length ≤ (digitSpan s).length := by
      rw [hs]; exact digitSpan_of_digit_prefix g1 (c1 :: (g2 ++ c2 :: g3)) h2
    cases hds : digitSpan s with
    | nil =>
      rw [hds] at hlen
      simp only [List.length_nil, Nat.le_zero, List.length_eq_zero] at hlen
      exact absurd hlen h1
    | cons d ds =>
      rw [hds] at hlen
      have hcomb : (d :: ds).reverse.reverse ++ s.drop (d :: ds).length =
          g1 ++ c1 :: (g2 ++ c2 :: g3) := by
        rw [List.reverse_reverse, ← hds, ← hs]
        exact digitSpan_split s
      exact tryG1_complete hcomb h1 h2 h3 h4 h5 h6 h7 h8 (by simpa using hlen)

theorem natOfDigits_reverse_reverse (l : List Char) :
    natOfDigits l.reverse.reverse = natOfDigits l := by
  rw [List.reverse_reverse]

/-- Evaluation of the matcher on a genuinely dot-separated string: the
three digit groups are recovered exactly. -/
theorem matchSemver_dotted (da db dc : List Char)
    (ha : da ≠ []) (had : ∀ c ∈ da, c.isDigit = true)
    (hb : db ≠ []) (hbd : ∀ c ∈ db, c.isDigit = true)
    (hc : dc ≠ []) (hcd : ∀ c ∈ dc, c.isDigit = true) :
    matchSemver (da ++ '.' :: (db ++ '.' :: dc)) =
      some (natOfDigits da, natOfDigits db, natOfDigits dc) := by
  have hdot : ('.' : Char).isDigit = false := by decide
  have hnl : ('.' : Char) ≠ '\n' := by decide
  have hsep2 : matchSep2 ('.' :: (db ++ '.' :: dc)) =
      some (natOfDigits db, natOfDigits dc) := by
    simp only [matchSep2, if_neg hnl]
    rw [show digitSpan (db ++ '.' :: dc) = db from
      digitSpan_append_stop db '.' dc hbd hdot]
    cases hdb : db with
    | nil => exact absurd hdb hb
    | cons e es =>
      rw [← hdb]
      have hdrop : (db ++ '.' :: dc).drop db.length = '.' :: dc :=
        List.drop_left db ('.' :: dc)
      rw [hdb] at hdrop ⊢
      show tryG2 (e :: es).reverse ((e :: es ++ '.' :: dc).drop (e :: es).length) =
        some (natOfDigits (e :: es), natOfDigits dc)
      rw [hdrop]
      rw [tryG2_some_of_sep ((e :: es).reverse) (matchSepG3_complete hnl hc hcd)]
      rw [natOfDigits_reverse_reverse]
  unfold matchSemver
  rw [show digitSpan (da ++ '.' :: (db ++ '.' :: dc)) = da from
    digitSpan_append_stop da '.' (db ++ '.' :: dc) had hdot]
  cases hda : da with
  | nil => exact absurd hda ha
  | cons e es =>
    rw [← hda]
    have hdrop : (da ++ '.' :: (db ++ '.' :: dc)).drop da.length =
        '.' :: (db ++ '.' :: dc) := List.drop_left da ('.' :: (db ++ '.' :: dc))
    rw [hda] at hdrop ⊢
    show tryG1 (e :: es).reverse ((e :: es ++ '.' :: (db ++ '.' :: dc)).drop (e :: es).length) =
      some (natOfDigits (e :: es), natOfDigits db, natOfDigits dc)
    rw [hdrop]
    rw [tryG1_some_of_sep ((e :: es).reverse) hsep2]
    rw [natOfDigits_reverse_reverse]


/-! ### Dictionary lemmas -/

theorem getLast?_cons_of_ne_nil {α : Type} {l : List α} (a : α) (h : l ≠ []) :
    (a :: l).getLast? = l.getLast? := by
  cases l with
  | nil => exact absurd rfl h
  | cons b t => exact List.getLast?_cons_cons

theorem find?_map_replace {α β : Type} [DecidableEq α]
    (d : List (α × β)) (k k' : α) (v : β) (hkk : k' ≠ k) :
    (d.map (fun p => if p.1 == k then (k, v) else p)).find?
        (fun p => p.1 == k') =
      d.find? (fun p => p.1 == k') := by
  induction d with
  | nil => rfl
  | cons p d ih =>
    by_cases hp : p.1 = k
    · have h1 : (if p.1 == k then (k, v) else p) = (k, v) := by
        rw [if_pos (beq_iff_eq.mpr hp)]
      have h2 : ((k, v).1 == k') = false :=
        beq_eq_false_iff_ne.mpr (fun h => hkk h.symm)
      have h3 : (p.1 == k') = false := by
        refine beq_eq_false_iff_ne.mpr ?_
        rw [hp]
        exact fun h => hkk h.symm
      simp only [List.map_cons, h1, List.find?, h2, h3]
      exact ih
    · have h1 : (if p.1 == k then (k, v) else p) = p := by
        rw [if_neg]
        simp [hp]
      simp only [List.map_cons, h1, List.find?]
      cases hpk : (p.1 == k') with
      | true => rfl
      | false => exact ih

theorem find?_map_replace_self {α β : Type} [DecidableEq α]
    (d : List (α × β)) (k : α) (v : β)
    (hany : d.any (fun p => p.1 == k) = true) :
    (d.map (fun p => if p.1 == k then (k, v) else p)).find?
        (fun p => p.1 == k) = some (k, v) := by
  induction d with
  | nil => simp at hany
  | cons p d ih =>
    by_cases hp : p.1 = k
    · have h1 : (if p.1 == k then (k, v) else p) = (k, v) := by
        rw [if_pos (beq_iff_eq.mpr hp)]
      simp only [List.map_cons, h1, List.find?, beq_self_eq_true]
    · have h1 : (if p.1 == k then (k, v) else p) = p := by
        rw [if_neg]
        simp [hp]
      have hbeq : (p.1 == k) = false := beq_eq_false_iff_ne.mpr hp
      simp only [List.any_cons, hbeq, Bool.false_or] at hany
      rw [List.map_cons, h1]
      simp only [List.find?, hbeq]
      exact ih hany

theorem lookupDict_append_single {α β : Type} [DecidableEq α]
    (d : List (α × β)) (k k' : α) (v : β)
    (hany : d.any (fun p => p.1 == k) = false) :
    lookupDict (d ++ [(k, v)]) k' =
      if k' = k then some v else lookupDict d k' := by
  induction d with
  | nil =>
    by_cases hk : k' = k
    · subst hk
      simp [lookupDict, List.find?]
    · have h2 : ((k, v).1 == k') = false :=
        beq_eq_false_iff_ne.mpr (fun h => hk h.symm)
      simp only [lookupDict, List.nil_append, List.find?, h2, if_neg hk]
  | cons p d ih =>
    simp only [List.any_cons, Bool.or_eq_false_iff] at hany
    obtain ⟨hp, hany2⟩ := hany
    cases hpk : (p.1 == k') with
    | true =>
      have hne : k' ≠ k := by
        intro h
        rw [h] at hpk
        rw [hpk] at hp
        exact absurd hp (by simp)
      simp only [lookupDict, List.cons_append, List.find?, hpk, if_neg hne]
    | false =>
      have := ih hany2
      simp only [lookupDict, List.cons_append, List.find?, hpk] at this ⊢
      exact this

theorem lookupDict_dictInsert {α β : Type} [DecidableEq α]
    (d : List (α × β)) (k k' : α) (v : β) :
    lookupDict (dictInsert d k v) k' =
      if k' = k then some v else lookupDict d k' := by
  unfold dictInsert
  cases hany : d.any (fun p => p.1 == k) with
  | true =>
    rw [if_pos rfl]
    by_cases hk : k' = k
    · subst hk
      simp only [lookupDict, find?_map_replace_self d k' v hany,
        Option.map_some']
      simp
    · simp only [lookupDict, find?_map_replace d k k' v hk, if_neg hk]
  | false =>
    rw [if_neg Bool.false_ne_true]
    exact lookupDict_append_single d k k' v hany

theorem dictInsert_fresh {α β : Type} [DecidableEq α]
    (d : List (α × β)) (k : α) (v : β)
    (h : ∀ p ∈ d, p.1 ≠ k) :
    dictInsert d k v = d ++ [(k, v)] := by
  unfold dictInsert
  have hany : d.any (fun p => p.1 == k) = false := by
    rw [List.any_eq_false]
    intro p hp
    simp only [beq_iff_eq]
    exact h p hp
  rw [hany, if_neg Bool.false_ne_true]

theorem dictInsert_keys_nodup {α β : Type} [DecidableEq α]
    (d : List (α × β)) (k : α) (v : β)
    (h : (d.map Prod.fst).Nodup) :
    ((dictInsert d k v).map Prod.fst).Nodup := by
  unfold dictInsert
  cases hany : d.any (fun p => p.1 == k) with
  | true =>
    rw [if_pos rfl]
    have hmap : (d.map (fun p => if p.1 == k then (k, v) else p)).map Prod.fst =
        d.map Prod.fst := by
      rw [List.map_map]
      apply List.map_congr_left
      intro p _
      show (if p.1 == k then (k, v) else p).1 = p.1
      by_cases hp : p.1 = k
      · rw [if_pos (beq_iff_eq.mpr hp)]
        exact hp.symm
      · rw [if_neg]
        simp [hp]
    rw [hmap]
    exact h
  | false =>
    rw [if_neg Bool.false_ne_true, List.map_append]
    rw [List.nodup_append]
    refine ⟨h, by simp, ?_⟩
    intro a ha hb
    simp only [List.map_cons, List.map_nil, List.mem_singleton] at hb
    subst hb
    rw [List.any_eq_false] at hany
    simp only [List.mem_map] at ha
    obtain ⟨p, hp, rfl⟩ := ha
    have := hany p hp
    simpa using this

/-! ### parseTags lemmas -/

theorem tagStep_none {d : List (Semver × Handle)} {t : String × Handle}
    (hp : parseRelease t.1 = none) : tagStep d t = d := by
  simp [tagStep, hp]

theorem tagStep_some {d : List (Semver × Handle)} {t : String × Handle}
    {ver : Semver} (hp : parseRelease t.1 = some ver) :
    tagStep d t = dictInsert d ver t.2 := by
  simp [tagStep, hp]

theorem foldl_parse_keys_nodup (tags : List (String × Handle)) :
    ∀ d : List (Semver × Handle), (d.map Prod.fst).Nodup →
      ((tags.foldl tagStep d).map Prod.fst).Nodup := by
  induction tags with
  | nil => exact fun d h => h
  | cons t rest ih =>
    intro d h
    rw [List.foldl_cons]
    cases hp : parseRelease t.1 with
    | none =>
      rw [tagStep_none hp]
      exact ih d h
    | some ver =>
      rw [tagStep_some hp]
      exact ih _ (dictInsert_keys_nodup d ver t.2 h)

theorem parseTags_keys_nodup (tags : List (String × Handle)) :
    ((parseTags tags).map Prod.fst).Nodup :=
  foldl_parse_keys_nodup tags [] (by simp)

theorem parsedList_cons_none {t : String × Handle} {rest : List (String × Handle)}
    (hp : parseRelease t.1 = none) :
    parsedList (t :: rest) = parsedList rest := by
  simp [parsedList, List.filterMap_cons, hp]

theorem parsedList_cons_some {t : String × Handle} {rest : List (String × Handle)}
    {ver : Semver} (hp : parseRelease t.1 = some ver) :
    parsedList (t :: rest) = (ver, t.2) :: parsedList rest := by
  simp [parsedList, List.filterMap_cons, hp]

theorem lookup_foldl_parse (tags : List (String × Handle)) :
    ∀ (d : List (Semver × Handle)) (v : Semver),
      lookupDict (tags.foldl tagStep d) v =
        match ((parsedList tags).filter (fun p => p.1 == v)).getLast? with
        | some p => some p.2
        | none => lookupDict d v := by
  induction tags with
  | nil =>
    intro d v
    simp [parsedList]
  | cons t rest ih =>
    intro d v
    rw [List.foldl_cons]
    cases hp : parseRelease t.1 with
    | none =>
      rw [tagStep_none hp, parsedList_cons_none hp]
      exact ih d v
    | some ver =>
      rw [tagStep_some hp, parsedList_cons_some hp, ih (dictInsert d ver t.2) v]
      by_cases hv : ver = v
      · subst hv
        rw [List.filter_cons_of_pos (by simp)]
        cases hlast : ((parsedList rest).filter (fun p => p.1 == ver)).getLast? with
        | some q =>
          rw [getLast?_cons_of_ne_nil _ (by
            intro hnil
            rw [hnil] at hlast
            simp at hlast), hlast]
        | none =>
          have hnil : (parsedList rest).filter (fun p => p.1 == ver) = [] := by
            cases hcase : (parsedList rest).filter (fun p => p.1 == ver) with
            | nil => rfl
            | cons a l =>
              rw [hcase] at hlast
              exact absurd hlast (by simp [List.getLast?_concat, getLast?_cons_of_ne_nil])
          rw [hnil]
          simp only [List.getLast?_singleton]
          rw [lookupDict_dictInsert d ver ver t.2, if_pos rfl]
      · rw [List.filter_cons_of_neg (by simpa using hv)]
        cases hlast : ((parsedList rest).filter (fun p => p.1 == v)).getLast? with
        | some q => rfl
        | none =>
          rw [lookupDict_dictInsert d ver v t.2, if_neg (Ne.symm hv)]

theorem parseTags_last_wins (tags : List (String × Handle)) (v : Semver) :
    lookupDict (parseTags tags) v =
      (((parsedList tags).filter (fun p => p.1 == v)).getLast?).map Prod.snd := by
  unfold parseTags
  rw [lookup_foldl_parse tags [] v]
  cases hlast : ((parsedList tags).filter (fun p => p.1 == v)).getLast? with
  | some q => rfl
  | none => rfl

theorem foldl_parse_eq_append (tags : List (String × Handle)) :
    ∀ d : List (Semver × Handle),
      ((d ++ parsedList tags).map Prod.fst).Nodup →
      tags.foldl tagStep d = d ++ parsedList tags := by
  induction tags with
  | nil =>
    intro d h
    simp [parsedList]
  | cons t rest ih =>
    intro d h
    rw [List.foldl_cons]
    cases hp : parseRelease t.1 with
    | none =>
      rw [tagStep_none hp, parsedList_cons_none hp]
      rw [parsedList_cons_none hp] at h
      exact ih d h
    | some ver =>
      rw [tagStep_some hp, parsedList_cons_some hp]
      rw [parsedList_cons_some hp] at h
      have hfresh : ∀ p ∈ d, p.1 ≠ ver := by
        intro p hpd
        rw [List.map_append, List.nodup_append] at h
        have hdisj := h.2.2
        intro hcontra
        refine hdisj (a := p.1) (List.mem_map_of_mem Prod.fst hpd) ?_
        rw [hcontra]
        simp
      rw [dictInsert_fresh d ver t.2 hfresh]
      have hnodup2 : (((d ++ [(ver, t.2)]) ++ parsedList rest).map Prod.fst).Nodup := by
        rw [List.append_assoc, List.singleton_append]
        exact h
      rw [ih (d ++ [(ver, t.2)]) hnodup2]
      simp

theorem parseTags_eq_parsedList (tags : List (String × Handle))
    (h : ((parsedList tags).map Prod.fst).Nodup) :
    parseTags tags = parsedList tags := by
  unfold parseTags
  have := foldl_parse_eq_append tags [] (by simpa using h)
  simpa using this

/-! ### Order facts on line keys -/

theorem lex2Le_refl (a : Nat × Nat) : lex2Le a a := by
  unfold lex2Le; omega

theorem lex2Lt_of_le_ne {a b : Nat × Nat} (h1 : lex2Le a b) (h2 : a ≠ b) :
    lex2Lt a b := by
  unfold lex2Le at h1
  unfold lex2Lt
  have h3 : ¬(a.1 = b.1 ∧ a.2 = b.2) := by
    intro ⟨x, y⟩
    exact h2 (Prod.ext x y)
  omega

theorem lex2Lt_le_trans {a b c : Nat × Nat} (h1 : lex2Lt a b)
    (h2 : lex2Le b c) : lex2Lt a c := by
  unfold lex2Lt at *
  unfold lex2Le at h2
  omega

theorem lex2Le_of_lt {a b : Nat × Nat} (h : lex2Lt a b) : lex2Le a b := by
  unfold lex2Lt at h
  unfold lex2Le
  omega

theorem ne_of_lex2Lt {a b : Nat × Nat} (h : lex2Lt a b) : a ≠ b := by
  unfold lex2Lt at h
  intro he
  subst he
  omega

theorem lineOf_mono {a b : Semver} (h : svLe a b) :
    lex2Le (lineOf a) (lineOf b) := by
  rw [svLe_iff] at h
  unfold lex2Le lineOf
  simp only
  omega

theorem svLt_of_lineOf_lt {a b : Semver} (h : lex2Lt (lineOf a) (lineOf b)) :
    Semver.lt a b = true := by
  unfold lex2Lt lineOf at h
  rw [Semver.lt_iff]
  simp only at h
  omega

theorem svLe_of_lineOf_lt {a b : Semver} (h : lex2Lt (lineOf a) (lineOf b)) :
    svLe a b := by
  rw [svLe_iff]
  unfold lex2Lt lineOf at h
  simp only at h
  omega

/-! ### groupByLine lemmas -/

theorem groupByLineAux_join (xs : List (Semver × Handle)) :
    ∀ (k : Nat × Nat) (acc : List (Semver × Handle)),
      ((groupByLineAux k acc xs).map (fun g => g.2)).flatten = acc ++ xs := by
  induction xs with
  | nil =>
    intro k acc
    simp [groupByLineAux]
  | cons x xs ih =>
    intro k acc
    unfold groupByLineAux
    by_cases hx : lineOf x.1 = k
    · rw [if_pos hx, ih]
      simp
    · rw [if_neg hx]
      simp only [List.map_cons, List.flatten_cons, ih]
      simp

theorem groupByLineAux_nonempty (xs : List (Semver × Handle)) :
    ∀ (k : Nat × Nat) (acc : List (Semver × Handle)), acc ≠ [] →
      ∀ g ∈ groupByLineAux k acc xs, g.2 ≠ [] := by
  induction xs with
  | nil =>
    intro k acc hacc g hg
    simp only [groupByLineAux, List.mem_singleton] at hg
    subst hg
    exact hacc
  | cons x xs ih =>
    intro k acc hacc g hg
    unfold groupByLineAux at hg
    by_cases hx : lineOf x.1 = k
    · rw [if_pos hx] at hg
      exact ih k (acc ++ [x]) (by simp) g hg
    · rw [if_neg hx] at hg
      rcases List.mem_cons.mp hg with hg | hg
      · subst hg
        exact hacc
      · exact ih (lineOf x.1) [x] (by simp) g hg

theorem groupByLineAux_lines (xs : List (Semver × Handle)) :
    ∀ (k : Nat × Nat) (acc : List (Semver × Handle)),
      (∀ p ∈ acc, lineOf p.1 = k) →
      ∀ g ∈ groupByLineAux k acc xs, ∀ p ∈ g.2, lineOf p.1 = g.1 := by
  induction xs with
  | nil =>
    intro k acc hacc g hg
    simp only [groupByLineAux, List.mem_singleton] at hg
    subst hg
    exact hacc
  | cons x xs ih =>
    intro k acc hacc g hg
    unfold groupByLineAux at hg
    by_cases hx : lineOf x.1 = k
    · rw [if_pos hx] at hg
      refine ih k (acc ++ [x]) ?_ g hg
      intro p hp
      rcases List.mem_append.mp hp with hp | hp
      · exact hacc p hp
      · rw [List.mem_singleton] at hp
        subst hp
        exact hx
    · rw [if_neg hx] at hg
      rcases List.mem_cons.mp hg with hg | hg
      · subst hg
        exact hacc
      · refine ih (lineOf x.1) [x] ?_ g hg
        intro p hp
        rw [List.mem_singleton] at hp
        subst hp
        rfl

theorem groupByLineAux_keys (xs : List (Semver × Handle)) :
    ∀ (k : Nat × Nat) (acc : List (Semver × Handle)),
      List.Sorted pairLe (acc ++ xs) → acc ≠ [] →
      (∀ p ∈ acc, lineOf p.1 = k) →
      ((groupByLineAux k acc xs).map (fun g => g.1)).Pairwise lex2Lt ∧
        ∀ g ∈ groupByLineAux k acc xs, lex2Le k g.1 := by
  induction xs with
  | nil =>
    intro k acc _ _ _
    constructor
    · simp [groupByLineAux]
    · intro g hg
      simp only [groupByLineAux, List.mem_singleton] at hg
      subst hg
      exact lex2Le_refl k
  | cons x xs ih =>
    intro k acc hsorted hacc hlines
    unfold groupByLineAux
    by_cases hx : lineOf x.1 = k
    · rw [if_pos hx]
      refine ih k (acc ++ [x]) ?_ (by simp) ?_
      · rw [List.append_assoc, List.singleton_append]
        exact hsorted
      · intro p hp
        rcases List.mem_append.mp hp with hp | hp
        · exact hlines p hp
        · rw [List.mem_singleton] at hp
          subst hp
          exact hx
    · rw [if_neg hx]
      have hsorted2 : List.Sorted pairLe (x :: xs) :=
        List.Pairwise.sublist (List.sublist_append_right acc (x :: xs)) hsorted
      have hih := ih (lineOf x.1) [x] (by simpa using hsorted2) (by simp)
        (by intro p hp; rw [List.mem_singleton] at hp; subst hp; rfl)
      have hkx : lex2Lt k (lineOf x.1) := by
        obtain ⟨p, hp⟩ := List.exists_mem_of_ne_nil acc hacc
        have hple : pairLe p x := by
          have := (List.pairwise_append.mp hsorted).2.2
          exact this p hp x (List.mem_cons_self x xs)
        have := lineOf_mono hple
        rw [hlines p hp] at this
        exact lex2Lt_of_le_ne this (fun he => hx he.symm)
      constructor
      · rw [List.map_cons, List.pairwise_cons]
        refine ⟨?_, hih.1⟩
        intro k2 hk2
        simp only [List.mem_map] at hk2
        obtain ⟨g, hg, rfl⟩ := hk2
        exact lex2Lt_le_trans hkx (hih.2 g hg)
      · intro g hg
        rcases List.mem_cons.mp hg with hg | hg
        · subst hg
          exact lex2Le_refl k
        · exact lex2Le_of_lt (lex2Lt_le_trans hkx (hih.2 g hg))

theorem groupByLine_keys {l : List (Semver × Handle)}
    (hsorted : List.Sorted pairLe l) :
    ((groupByLine l).map (fun g => g.1)).Pairwise lex2Lt := by
  cases l with
  | nil => simp [groupByLine]
  | cons x xs =>
    exact (groupByLineAux_keys xs (lineOf x.1) [x] (by simpa using hsorted)
      (by simp) (by intro p hp; rw [List.mem_singleton] at hp; subst hp; rfl)).1

theorem groupByLine_flatten (l : List (Semver × Handle)) :
    ((groupByLine l).map (fun g => g.2)).flatten = l := by
  cases l with
  | nil => rfl
  | cons x xs => exact groupByLineAux_join xs (lineOf x.1) [x]

theorem groupByLine_nonempty {l : List (Semver × Handle)} :
    ∀ g ∈ groupByLine l, g.2 ≠ [] := by
  cases l with
  | nil => simp [groupByLine]
  | cons x xs => exact groupByLineAux_nonempty xs (lineOf x.1) [x] (by simp)

theorem groupByLine_lines {l : List (Semver × Handle)} :
    ∀ g ∈ groupByLine l, ∀ p ∈ g.2, lineOf p.1 = g.1 := by
  cases l with
  | nil => simp [groupByLine]
  | cons x xs =>
    exact groupByLineAux_lines xs (lineOf x.1) [x]
      (by intro p hp; rw [List.mem_singleton] at hp; subst hp; rfl)

theorem groupByLine_mem_of_mem {l : List (Semver × Handle)}
    {g : (Nat × Nat) × List (Semver × Handle)} {p : Semver × Handle}
    (hg : g ∈ groupByLine l) (hp : p ∈ g.2) : p ∈ l := by
  rw [← groupByLine_flatten l]
  rw [List.mem_flatten]
  exact ⟨g.2, List.mem_map_of_mem (fun g => g.2) hg, hp⟩

theorem groupByLine_covers {l : List (Semver × Handle)} {p : Semver × Handle}
    (hp : p ∈ l) : ∃ g ∈ groupByLine l, p ∈ g.2 := by
  rw [← groupByLine_flatten l] at hp
  rw [List.mem_flatten] at hp
  obtain ⟨m, hm, hpm⟩ := hp
  rw [List.mem_map] at hm
  obtain ⟨g, hg, rfl⟩ := hm
  exact ⟨g, hg, hpm⟩

theorem pairwise_key_unique {gs : List ((Nat × Nat) × List (Semver × Handle))}
    (h : (gs.map (fun g => g.1)).Pairwise lex2Lt)
    {g g' : (Nat × Nat) × List (Semver × Handle)}
    (hg : g ∈ gs) (hg' : g' ∈ gs) (hk : g.1 = g'.1) : g = g' := by
  induction gs with
  | nil => cases hg
  | cons a gs ih =>
    rw [List.map_cons, List.pairwise_cons] at h
    rcases List.mem_cons.mp hg with rfl | hgm
    · rcases List.mem_cons.mp hg' with rfl | hgm'
      · rfl
      · exact absurd hk
          (ne_of_lex2Lt (h.1 g'.1 (List.mem_map_of_mem (fun g => g.1) hgm')))
    · rcases List.mem_cons.mp hg' with rfl | hgm'
      · exact absurd hk.symm
          (ne_of_lex2Lt (h.1 g.1 (List.mem_map_of_mem (fun g => g.1) hgm)))
      · exact ih h.2 hgm hgm'

theorem sorted_getLast?_max {l : List (Semver × Handle)}
    (hs : List.Sorted pairLe l) {x : Semver × Handle}
    (hx : l.getLast? = some x) : x ∈ l ∧ ∀ p ∈ l, svLe p.1 x.1 := by
  induction l with
  | nil => simp at hx
  | cons a l ih =>
    cases l with
    | nil =>
      have hax : x = a := by
        simp only [List.getLast?_singleton, Option.some_inj] at hx
        first
        | exact hx
        | exact hx.symm
      rw [hax]
      refine ⟨List.mem_singleton_self a, ?_⟩
      intro p hp
      rw [List.mem_singleton] at hp
      rw [hp]
      exact svLe_refl a.1
    | cons b t =>
      rw [List.getLast?_cons_cons] at hx
      have hrel := List.rel_of_sorted_cons hs
      have hres := ih hs.of_cons hx
      refine ⟨List.mem_cons_of_mem a hres.1, ?_⟩
      intro p hp
      rcases List.mem_cons.mp hp with rfl | hp
      · exact hrel x hres.1
      · exact hres.2 p hp

theorem foldl_groupDict (gs : List ((Nat × Nat) × List (Semver × Handle))) :
    ∀ d : List ((Nat × Nat) × List (Semver × Handle)),
      (d.map Prod.fst ++ gs.map (fun g => g.1)).Nodup →
      gs.foldl (fun d g => dictInsert d g.1 (List.insertionSort pairLe g.2)) d =
        d ++ gs.map (fun g => (g.1, List.insertionSort pairLe g.2)) := by
  induction gs with
  | nil =>
    intro d _
    simp
  | cons g gs ih =>
    intro d h
    rw [List.foldl_cons]
    have hfresh : ∀ p ∈ d, p.1 ≠ g.1 := by
      intro p hpd
      rw [List.map_cons, List.nodup_append] at h
      have hdisj := h.2.2
      intro hcontra
      refine hdisj (List.mem_map_of_mem Prod.fst hpd) ?_
      rw [hcontra]
      simp
    rw [dictInsert_fresh d g.1 (List.insertionSort pairLe g.2) hfresh]
    have h2 : ((d ++ [(g.1, List.insertionSort pairLe g.2)]).map Prod.fst ++
        gs.map (fun g => g.1)).Nodup := by
      rw [List.map_append]
      rw [List.append_assoc]
      have : ([(g.1, List.insertionSort pairLe g.2)].map Prod.fst ++
          gs.map fun g => g.1) = g.1 :: gs.map (fun g => g.1) := by simp
      rw [this]
      simpa using h
    rw [ih (d ++ [(g.1, List.insertionSort pairLe g.2)]) h2]
    simp

theorem group_releases_eq (releases : List (Semver × Handle)) :
    group_releases_by_minor_versions releases =
      (groupByLine (List.insertionSort pairLe releases)).map
        (fun g => (g.1, List.insertionSort pairLe g.2)) := by
  unfold group_releases_by_minor_versions
  haveI := pairLe_isTotal
  haveI := pairLe_isTrans
  have hkeys := groupByLine_keys (List.sorted_insertionSort pairLe releases)
  have hnodup : ((groupByLine (List.insertionSort pairLe releases)).map
      (fun g => g.1)).Nodup :=
    hkeys.imp (fun h => ne_of_lex2Lt h)
  have := foldl_groupDict (groupByLine (List.insertionSort pairLe releases)) []
    (by simpa using hnodup)
  simpa using this

theorem selectLoop_eq (gs : List ((Nat × Nat) × List (Semver × Handle)))
    (h : ∀ g ∈ gs, g.2 ≠ []) :
    selectLoop gs = .ok
      ((gs.filter (fun g => g.1.2 % 2 == 0)).filterMap (fun g => g.2.getLast?),
       (gs.filter (fun g => !(g.1.2 % 2 == 0))).filterMap
         (fun g => g.2.getLast?)) := by
  induction gs with
  | nil => rfl
  | cons g gs ih =>
    have hg2 : g.2 ≠ [] := h g (List.mem_cons_self g gs)
    obtain ⟨r, hr⟩ := Option.isSome_iff_exists.mp (List.getLast?_isSome.mpr hg2)
    have ihr := ih (fun g hg => h g (List.mem_cons_of_mem _ hg))
    by_cases hpar : g.1.2 % 2 = 0
    · have hb : (g.1.2 % 2 == 0) = true := by simpa using hpar
      rw [List.filter_cons_of_pos (by simpa using hb),
        List.filter_cons_of_neg (by simp [hb])]
      simp only [List.filterMap_cons, hr]
      simp only [selectLoop, hr, ihr, if_pos hpar]
    · have hb : (g.1.2 % 2 == 0) = false := by simpa using hpar
      rw [List.filter_cons_of_neg (by simp [hb]),
        List.filter_cons_of_pos (by simp [hb])]
      simp only [List.filterMap_cons, hr]
      simp only [selectLoop, hr, ihr, if_neg hpar]

theorem insertionSort_ne_nil {l : List (Semver × Handle)} (h : l ≠ []) :
    List.insertionSort pairLe l ≠ [] := by
  intro hc
  have hperm := List.perm_insertionSort pairLe l
  rw [hc] at hperm
  exact h hperm.nil_eq.symm

theorem grouped_nonempty (tags : List (String × Handle)) :
    ∀ g ∈ group_releases_by_minor_versions (parseTags tags), g.2 ≠ [] := by
  rw [group_releases_eq]
  intro g hg
  rw [List.mem_map] at hg
  obtain ⟨g0, hg0, rfl⟩ := hg
  exact insertionSort_ne_nil (groupByLine_nonempty g0 hg0)

theorem select_releases_eq (tags : List (String × Handle)) :
    select_releases tags =
      match (((group_releases_by_minor_versions (parseTags tags)).filter
          (fun g => !(g.1.2 % 2 == 0))).filterMap
            (fun g => g.2.getLast?)).getLast? with
      | none => .error .indexError
      | some dev => .ok
          ((((group_releases_by_minor_versions (parseTags tags)).filter
            (fun g => g.1.2 % 2 == 0)).filterMap (fun g => g.2.getLast?)),
            [dev]) := by
  unfold select_releases
  rw [selectLoop_eq _ (grouped_nonempty tags)]

theorem mem_of_getLast?_eq {α : Type} {l : List α} {x : α}
    (h : l.getLast? = some x) : x ∈ l := by
  induction l with
  | nil => simp at h
  | cons a l ih =>
    cases l with
    | nil =>
      simp only [List.getLast?_singleton, Option.some_inj] at h
      simp [h.symm]
    | cons b t =>
      rw [List.getLast?_cons_cons] at h
      exact List.mem_cons_of_mem a (ih h)

theorem filterMap_getLast?_all_some {α β : Type} {l : List α}
    {f : α → Option β} (h : ∀ a ∈ l, (f a).isSome = true) :
    (l.filterMap f).getLast? = l.getLast?.bind f := by
  induction l with
  | nil => rfl
  | cons a l ih =>
    obtain ⟨b, hb⟩ := Option.isSome_iff_exists.mp (h a (List.mem_cons_self a l))
    have hb2 : (fun a => f a) a = some b := hb
    cases l with
    | nil =>
      simp [List.filterMap_cons, hb]
    | cons c t =>
      have hetail := ih (fun x hx => h x (List.mem_cons_of_mem a hx))
      obtain ⟨d, hd⟩ :=
        Option.isSome_iff_exists.mp (h c (by simp))
      have htail_ne : (c :: t).filterMap f ≠ [] := by
        intro hc
        rw [List.filterMap_cons, hd] at hc
        exact absurd hc (by simp)
      rw [List.filterMap_cons, hb]
      show (b :: (c :: t).filterMap f).getLast? = ((a :: c :: t).getLast?).bind f
      rw [getLast?_cons_of_ne_nil b htail_ne, getLast?_cons_of_ne_nil a (by simp)]
      exact hetail

theorem pairwise_getLast?_max {α : Type} {R : α → α → Prop} :
    ∀ {l : List α} {x : α}, l.Pairwise R → l.getLast? = some x →
      ∀ y ∈ l, y = x ∨ R y x := by
  intro l
  induction l with
  | nil =>
    intro x _ hx
    simp at hx
  | cons a l ih =>
    intro x h hx y hy
    rw [List.pairwise_cons] at h
    cases l with
    | nil =>
      simp only [List.getLast?_singleton, Option.some_inj] at hx
      rw [List.mem_singleton] at hy
      left
      exact hy.trans hx
    | cons b t =>
      rw [List.getLast?_cons_cons] at hx
      rcases List.mem_cons.mp hy with rfl | hy2
      · exact Or.inr (h.1 x (mem_of_getLast?_eq hx))
      · exact ih h.2 hx y hy2

theorem odd_pred_iff (n : Nat) : (!(n % 2 == 0)) = true ↔ n % 2 = 1 := by
  simp only [Bool.not_eq_true', beq_eq_false_iff_ne, ne_eq]
  omega

/-! ### What the code selects for stable lines and the dev snapshot -/

theorem stable_entry_spec (tags : List (String × Handle))
    {x : Semver × Handle}
    (hx : x ∈ ((group_releases_by_minor_versions (parseTags tags)).filter
      (fun g => g.1.2 % 2 == 0)).filterMap (fun g => g.2.getLast?)) :
    x ∈ parseTags tags ∧ x.1.minor % 2 = 0 ∧
      ∀ y ∈ parseTags tags, lineOf y.1 = lineOf x.1 → svLe y.1 x.1 := by
  haveI := pairLe_isTotal
  haveI := pairLe_isTrans
  rw [List.mem_filterMap] at hx
  obtain ⟨g, hgf, hglast⟩ := hx
  have hgm : g ∈ group_releases_by_minor_versions (parseTags tags) :=
    (List.mem_filter.mp hgf).1
  have hgeven : (g.1.2 % 2 == 0) = true := (List.mem_filter.mp hgf).2
  rw [group_releases_eq, List.mem_map] at hgm
  obtain ⟨g0, hg0, rfl⟩ := hgm
  have hsorted0 : List.Sorted pairLe (List.insertionSort pairLe g0.2) :=
    List.sorted_insertionSort pairLe g0.2
  obtain ⟨hxmem, hxmax⟩ := sorted_getLast?_max hsorted0 hglast
  have hxg0 : x ∈ g0.2 := (List.mem_insertionSort pairLe).mp hxmem
  have hxline : lineOf x.1 = g0.1 :=
    groupByLine_lines g0 hg0 x hxg0
  have hxsorted : x ∈ List.insertionSort pairLe (parseTags tags) :=
    groupByLine_mem_of_mem hg0 hxg0
  have hxentries : x ∈ parseTags tags :=
    (List.perm_insertionSort pairLe (parseTags tags)).mem_iff.mp hxsorted
  refine ⟨hxentries, ?_, ?_⟩
  · have : x.1.minor = (lineOf x.1).2 := rfl
    rw [this, hxline]
    simpa using hgeven
  · intro y hy hline
    have hysorted : y ∈ List.insertionSort pairLe (parseTags tags) :=
      (List.perm_insertionSort pairLe (parseTags tags)).mem_iff.mpr hy
    obtain ⟨g1, hg1, hyg1⟩ := groupByLine_covers hysorted
    have hyline : lineOf y.1 = g1.1 := groupByLine_lines g1 hg1 y hyg1
    have hkeq : g1.1 = g0.1 := by
      rw [← hyline, hline, hxline]
    have hkeys := groupByLine_keys
      (List.sorted_insertionSort pairLe (parseTags tags))
    have hg1g0 : g1 = g0 := pairwise_key_unique hkeys hg1 hg0 hkeq
    subst hg1g0
    exact hxmax y ((List.mem_insertionSort pairLe).mpr hyg1)

theorem stable_covers (tags : List (String × Handle))
    {y : Semver × Handle} (hy : y ∈ parseTags tags)
    (hyeven : y.1.minor % 2 = 0) :
    ∃ x ∈ ((group_releases_by_minor_versions (parseTags tags)).filter
      (fun g => g.1.2 % 2 == 0)).filterMap (fun g => g.2.getLast?),
      lineOf x.1 = lineOf y.1 := by
  haveI := pairLe_isTotal
  haveI := pairLe_isTrans
  have hysorted : y ∈ List.insertionSort pairLe (parseTags tags) :=
    (List.perm_insertionSort pairLe (parseTags tags)).mem_iff.mpr hy
  obtain ⟨g1, hg1, hyg1⟩ := groupByLine_covers hysorted
  have hyline : lineOf y.1 = g1.1 := groupByLine_lines g1 hg1 y hyg1
  have hg1m : (g1.1, List.insertionSort pairLe g1.2) ∈
      group_releases_by_minor_versions (parseTags tags) := by
    rw [group_releases_eq]
    exact List.mem_map_of_mem _ hg1
  have hgne : List.insertionSort pairLe g1.2 ≠ [] :=
    insertionSort_ne_nil (groupByLine_nonempty g1 hg1)
  obtain ⟨x, hxlast⟩ :=
    Option.isSome_iff_exists.mp (List.getLast?_isSome.mpr hgne)
  have heven : ((g1.1, List.insertionSort pairLe g1.2).1.2 % 2 == 0) = true := by
    have : g1.1.2 = y.1.minor := by rw [← hyline]; rfl
    simpa [this] using hyeven
  refine ⟨x, ?_, ?_⟩
  · rw [List.mem_filterMap]
    exact ⟨(g1.1, List.insertionSort pairLe g1.2),
      List.mem_filter.mpr ⟨hg1m, heven⟩, hxlast⟩
  · have hxmem := (sorted_getLast?_max
      (List.sorted_insertionSort pairLe g1.2) hxlast).1
    have hxg1 : x ∈ g1.2 := (List.mem_insertionSort pairLe).mp hxmem
    rw [groupByLine_lines g1 hg1 x hxg1, hyline]

theorem dev_entry_spec (tags : List (String × Handle))
    {dm : Semver × Handle}
    (hdm : (((group_releases_by_minor_versions (parseTags tags)).filter
      (fun g => !(g.1.2 % 2 == 0))).filterMap
        (fun g => g.2.getLast?)).getLast? = some dm) :
    dm ∈ parseTags tags ∧ dm.1.minor % 2 = 1 ∧
      ∀ y ∈ parseTags tags, y.1.minor % 2 = 1 → svLe y.1 dm.1 := by
  haveI := pairLe_isTotal
  haveI := pairLe_isTrans
  have hallsome : ∀ g ∈ (group_releases_by_minor_versions
      (parseTags tags)).filter (fun g => !(g.1.2 % 2 == 0)),
      (g.2.getLast?).isSome = true := by
    intro g hg
    exact List.getLast?_isSome.mpr
      (grouped_nonempty tags g (List.mem_filter.mp hg).1)
  rw [filterMap_getLast?_all_some hallsome] at hdm
  rw [Option.bind_eq_some] at hdm
  obtain ⟨glast, hglast, hdml⟩ := hdm
  have hglmem : glast ∈ (group_releases_by_minor_versions
      (parseTags tags)).filter (fun g => !(g.1.2 % 2 == 0)) :=
    mem_of_getLast?_eq hglast
  have hglgrouped : glast ∈ group_releases_by_minor_versions (parseTags tags) :=
    (List.mem_filter.mp hglmem).1
  have hglodd : (!(glast.1.2 % 2 == 0)) = true := (List.mem_filter.mp hglmem).2
  obtain ⟨g0, hg0, hg0eq⟩ := by
    rw [group_releases_eq, List.mem_map] at hglgrouped
    exact hglgrouped
  have hgl2 : glast.2 = List.insertionSort pairLe g0.2 := by rw [← hg0eq]
  have hgl1 : glast.1 = g0.1 := by rw [← hg0eq]
  rw [hgl2] at hdml
  obtain ⟨hdmmem, hdmmax⟩ :=
    sorted_getLast?_max (List.sorted_insertionSort pairLe g0.2) hdml
  have hdmg0 : dm ∈ g0.2 := (List.mem_insertionSort pairLe).mp hdmmem
  have hdmline : lineOf dm.1 = g0.1 := groupByLine_lines g0 hg0 dm hdmg0
  have hdmentries : dm ∈ parseTags tags :=
    (List.perm_insertionSort pairLe (parseTags tags)).mem_iff.mp
      (groupByLine_mem_of_mem hg0 hdmg0)
  have hdmodd : dm.1.minor % 2 = 1 := by
    have h1 : dm.1.minor = (lineOf dm.1).2 := rfl
    rw [h1, hdmline, ← hgl1]
    exact (odd_pred_iff glast.1.2).mp hglodd
  refine ⟨hdmentries, hdmodd, ?_⟩
  intro y hy hyodd
  have hysorted : y ∈ List.insertionSort pairLe (parseTags tags) :=
    (List.perm_insertionSort pairLe (parseTags tags)).mem_iff.mpr hy
  obtain ⟨g1, hg1, hyg1⟩ := groupByLine_covers hysorted
  have hyline : lineOf y.1 = g1.1 := groupByLine_lines g1 hg1 y hyg1
  have hg1mem : (g1.1, List.insertionSort pairLe g1.2) ∈
      (group_releases_by_minor_versions (parseTags tags)).filter
        (fun g => !(g.1.2 % 2 == 0)) := by
    refine List.mem_filter.mpr ⟨?_, ?_⟩
    · rw [group_releases_eq]
      exact List.mem_map_of_mem _ hg1
    · refine (odd_pred_iff g1.1.2).mpr ?_
      have : g1.1.2 = y.1.minor := by rw [← hyline]; rfl
      rw [this]
      exact hyodd
  have hkeyspw : (((group_releases_by_minor_versions (parseTags tags)).filter
      (fun g => !(g.1.2 % 2 == 0))).map (fun g => g.1)).Pairwise lex2Lt := by
    have hbase := groupByLine_keys
      (List.sorted_insertionSort pairLe (parseTags tags))
    have hmapeq : (group_releases_by_minor_versions (parseTags tags)).map
        (fun g => g.1) =
        (groupByLine (List.insertionSort pairLe (parseTags tags))).map
          (fun g => g.1) := by
      rw [group_releases_eq, List.map_map]
      rfl
    have hgrpw : ((group_releases_by_minor_versions (parseTags tags)).map
        (fun g => g.1)).Pairwise lex2Lt := by
      rw [hmapeq]
      exact hbase
    exact List.Pairwise.sublist
      (List.Sublist.map _ (List.filter_sublist _)) hgrpw
  have hpw2 : ((group_releases_by_minor_versions (parseTags tags)).filter
      (fun g => !(g.1.2 % 2 == 0))).Pairwise
        (fun g g' => lex2Lt g.1 g'.1) :=
    (List.pairwise_map).mp hkeyspw
  rcases pairwise_getLast?_max hpw2 hglast _ hg1mem with heq | hlt
  · have hyglast : y ∈ glast.2 := by
      rw [← heq]
      exact (List.mem_insertionSort pairLe).mpr hyg1
    rw [hgl2] at hyglast
    exact hdmmax y hyglast
  · refine svLe_of_lineOf_lt ?_
    rw [hyline, hdmline, ← hgl1]
    exact hlt

theorem no_dev_line_empty (tags : List (String × Handle))
    (hall : ∀ y ∈ parseTags tags, y.1.minor % 2 = 0) :
    (group_releases_by_minor_versions (parseTags tags)).filter
      (fun g => !(g.1.2 % 2 == 0)) = [] := by
  rw [List.filter_eq_nil_iff]
  intro g hg
  rw [group_releases_eq, List.mem_map] at hg
  obtain ⟨g0, hg0, rfl⟩ := hg
  obtain ⟨p, hp⟩ := List.exists_mem_of_ne_nil g0.2 (groupByLine_nonempty g0 hg0)
  have hpentries : p ∈ parseTags tags :=
    (List.perm_insertionSort pairLe (parseTags tags)).mem_iff.mp
      (groupByLine_mem_of_mem hg0 hp)
  have hpline : lineOf p.1 = g0.1 := groupByLine_lines g0 hg0 p hp
  have heven : g0.1.2 % 2 = 0 := by
    have h1 : p.1.minor = (lineOf p.1).2 := rfl
    rw [← hpline]
    rw [← h1]
    exact hall p hpentries
  simp only [Bool.not_eq_true', Bool.not_eq_false]
  simpa using heven

theorem no_dev_indexError (tags : List (String × Handle))
    (hall : ∀ y ∈ parseTags tags, y.1.minor % 2 = 0) :
    select_releases tags = .error .indexError := by
  rw [select_releases_eq, no_dev_line_empty tags hall]
  rfl

/-! ### Order-independence machinery -/

theorem sorted_pairLt_of_nodup {l : List (Semver × Handle)}
    (hs : List.Sorted pairLe l) (hn : (l.map Prod.fst).Nodup) :
    l.Pairwise pairLt := by
  have hne : l.Pairwise (fun a b => a.1 ≠ b.1) := (List.pairwise_map).mp hn
  have hand := List.Pairwise.and hs hne
  exact hand.imp (fun hab => svLt_of_svLe_ne hab.1 hab.2)

theorem insertionSort_parseTags_eq {tags1 tags2 : List (String × Handle)}
    (hperm : tags1.Perm tags2)
    (hnodup : ((parsedList tags1).map Prod.fst).Nodup) :
    List.insertionSort pairLe (parseTags tags1) =
      List.insertionSort pairLe (parseTags tags2) := by
  haveI := pairLe_isTotal
  haveI := pairLe_isTrans
  haveI := pairLt_isAntisymm
  have hperm2 : (parsedList tags1).Perm (parsedList tags2) :=
    hperm.filterMap _
  have hnodup2 : ((parsedList tags2).map Prod.fst).Nodup :=
    ((hperm2.map Prod.fst).nodup_iff).mp hnodup
  rw [parseTags_eq_parsedList tags1 hnodup, parseTags_eq_parsedList tags2 hnodup2]
  have hp : (List.insertionSort pairLe (parsedList tags1)).Perm
      (List.insertionSort pairLe (parsedList tags2)) :=
    ((List.perm_insertionSort pairLe (parsedList tags1)).trans hperm2).trans
      (List.perm_insertionSort pairLe (parsedList tags2)).symm
  have hs1 := List.sorted_insertionSort pairLe (parsedList tags1)
  have hs2 := List.sorted_insertionSort pairLe (parsedList tags2)
  have hn1 : ((List.insertionSort pairLe (parsedList tags1)).map Prod.fst).Nodup := by
    refine ((List.perm_insertionSort pairLe (parsedList tags1)).map
      Prod.fst).nodup_iff.mpr hnodup
  have hn2 : ((List.insertionSort pairLe (parsedList tags2)).map Prod.fst).Nodup := by
    refine ((List.perm_insertionSort pairLe (parsedList tags2)).map
      Prod.fst).nodup_iff.mpr hnodup2
  exact List.eq_of_perm_of_sorted hp
    (sorted_pairLt_of_nodup hs1 hn1) (sorted_pairLt_of_nodup hs2 hn2)

theorem select_releases_order_free {tags1 tags2 : List (String × Handle)}
    (hperm : tags1.Perm tags2)
    (hnodup : ((parsedList tags1).map Prod.fst).Nodup) :
    group_releases_by_minor_versions (parseTags tags1) =
      group_releases_by_minor_versions (parseTags tags2) ∧
      select_releases tags1 = select_releases tags2 := by
  have hsort := insertionSort_parseTags_eq hperm hnodup
  have hgrp : group_releases_by_minor_versions (parseTags tags1) =
      group_releases_by_minor_versions (parseTags tags2) := by
    unfold group_releases_by_minor_versions
    rw [hsort]
  refine ⟨hgrp, ?_⟩
  unfold select_releases
  rw [hgrp]

/-! ### Download-loop lemmas -/

theorem download_ok_asset {version : Semver} {assets : List String}
    {work out : List Semver} (h : "docs.tgz" ∈ assets) :
    download_and_extract_docs version assets work out =
      .ok (version :: work, out ++ [version]) := by
  simp [download_and_extract_docs, h]

theorem download_ok_stale {version : Semver} {assets : List String}
    {work out : List Semver} (hna : "docs.tgz" ∉ assets) (h : version ∈ work) :
    download_and_extract_docs version assets work out =
      .ok (work, out ++ [version]) := by
  simp [download_and_extract_docs, hna, h]

theorem download_error {version : Semver} {assets : List String}
    {work out : List Semver} (hna : "docs.tgz" ∉ assets)
    (h : version ∉ work) :
    download_and_extract_docs version assets work out =
      .error (.fileNotFound version) := by
  simp [download_and_extract_docs, hna, h]

theorem publishAll_cons (v : Semver) (assets : List String)
    (rest : List (Semver × List String)) (work out : List Semver) :
    publishAll ((v, assets) :: rest) work out =
      match download_and_extract_docs v assets work out with
      | .error e => ((work, out), some e)
      | .ok (work2, out2) => publishAll rest work2 out2 := rfl

theorem publishAll_abort (good : List (Semver × List String)) :
    ∀ (v : Semver) (assets : List String) (rest : List (Semver × List String))
      (work out : List Semver),
      (∀ g ∈ good, "docs.tgz" ∈ g.2 ∨ g.1 ∈ work) →
      "docs.tgz" ∉ assets → v ∉ work → v ∉ good.map Prod.fst →
      ∃ work2, publishAll (good ++ (v, assets) :: rest) work out =
        ((work2, out ++ good.map Prod.fst), some (.fileNotFound v)) := by
  induction good with
  | nil =>
    intro v assets rest work out _ hna hvw _
    refine ⟨work, ?_⟩
    rw [List.nil_append]
    have hstep : publishAll ((v, assets) :: rest) work out =
        ((work, out), some (.fileNotFound v)) := by
      rw [publishAll_cons, download_error hna hvw]
    rw [hstep]
    simp
  | cons g good ih =>
    intro v assets rest work out hgood hna hvw hvg
    obtain ⟨gv, gas⟩ := g
    rw [List.cons_append]
    have hvg2 : v ∉ good.map Prod.fst := by
      intro hc
      exact hvg (List.mem_cons_of_mem _ hc)
    have hvne : v ≠ gv := by
      intro hc
      refine hvg ?_
      rw [List.map_cons, hc]
      exact List.mem_cons_self gv _
    rcases hgood (gv, gas) (List.mem_cons_self _ _) with hasset | hstale
    · have hstep : publishAll ((gv, gas) :: (good ++ (v, assets) :: rest))
          work out =
          publishAll (good ++ (v, assets) :: rest) (gv :: work)
            (out ++ [gv]) := by
        rw [publishAll_cons, download_ok_asset hasset]
      rw [hstep]
      obtain ⟨w2, hw2⟩ := ih v assets rest (gv :: work) (out ++ [gv])
        (by
          intro g2 hg2
          rcases hgood g2 (List.mem_cons_of_mem _ hg2) with ha | hw
          · exact Or.inl ha
          · exact Or.inr (List.mem_cons_of_mem gv hw))
        hna
        (by
          intro hc
          rcases List.mem_cons.mp hc with hc | hc
          · exact hvne hc
          · exact hvw hc)
        hvg2
      refine ⟨w2, ?_⟩
      rw [hw2]
      simp
    · by_cases hasset : "docs.tgz" ∈ gas
      · have hstep : publishAll ((gv, gas) :: (good ++ (v, assets) :: rest))
            work out =
            publishAll (good ++ (v, assets) :: rest) (gv :: work)
              (out ++ [gv]) := by
          rw [publishAll_cons, download_ok_asset hasset]
        rw [hstep]
        obtain ⟨w2, hw2⟩ := ih v assets rest (gv :: work) (out ++ [gv])
          (by
            intro g2 hg2
            rcases hgood g2 (List.mem_cons_of_mem _ hg2) with ha | hw
            · exact Or.inl ha
            · exact Or.inr (List.mem_cons_of_mem gv hw))
          hna
          (by
            intro hc
            rcases List.mem_cons.mp hc with hc | hc
            · exact hvne hc
            · exact hvw hc)
          hvg2
        refine ⟨w2, ?_⟩
        rw [hw2]
        simp
      · have hstep : publishAll ((gv, gas) :: (good ++ (v, assets) :: rest))
            work out =
            publishAll (good ++ (v, assets) :: rest) work (out ++ [gv]) := by
          rw [publishAll_cons, download_ok_stale hasset hstale]
        rw [hstep]
        obtain ⟨w2, hw2⟩ := ih v assets rest work (out ++ [gv])
          (by
            intro g2 hg2
            rcases hgood g2 (List.mem_cons_of_mem _ hg2) with ha | hw
            · exact Or.inl ha
            · exact Or.inr hw)
          hna hvw hvg2
        refine ⟨w2, ?_⟩
        rw [hw2]
        simp

/-! ### Probe and trunk lemmas -/

theorem get_doc_job_isSome_iff (statuses : List CommitStatus) :
    (get_doc_job statuses).isSome = true ↔
      ∃ j ∈ statuses, j.name = "docs" ∧ j.status = "success" := by
  unfold get_doc_job
  rw [List.find?_isSome]
  constructor
  · rintro ⟨j, hj, hs⟩
    rw [List.mem_filter] at hj
    exact ⟨j, hj.1, by simpa using hj.2, by simpa using hs⟩
  · rintro ⟨j, hj, hn, hs⟩
    exact ⟨j, List.mem_filter.mpr ⟨hj, by simpa using hn⟩, by simpa using hs⟩

theorem selectTrunk_error_iff (probe : Nat → Bool) (hist : List Nat) :
    selectTrunk probe hist = .error .unresolvedTrunk ↔
      ∀ h ∈ hist, probe h = false := by
  induction hist with
  | nil => simp [selectTrunk]
  | cons p older ih =>
    by_cases hp : probe p = true
    · simp [selectTrunk, hp]
    · have hp2 : probe p = false := by simpa using hp
      simp [selectTrunk, hp2, ih]

theorem selectTrunk_ok_iff (probe : Nat → Bool) (hist : List Nat) (p : Nat) :
    selectTrunk probe hist = .ok p ↔
      ∃ pre post, hist = pre ++ p :: post ∧ probe p = true ∧
        ∀ q ∈ pre, probe q = false := by
  induction hist with
  | nil =>
    simp only [selectTrunk]
    constructor
    · intro h
      exact absurd h (by simp)
    · rintro ⟨pre, post, habs, _, _⟩
      exact absurd habs.symm (by simp)
  | cons x older ih =>
    by_cases hx : probe x = true
    · rw [show selectTrunk probe (x :: older) = .ok x by simp [selectTrunk, hx]]
      constructor
      · intro h
        have hxp : x = p := by
          injection h
        subst hxp
        exact ⟨[], older, rfl, hx, by simp⟩
      · rintro ⟨pre, post, heq, hpp, hpre⟩
        cases pre with
        | nil =>
          simp only [List.nil_append, List.cons.injEq] at heq
          rw [heq.1]
        | cons q pre2 =>
          rw [List.cons_append, List.cons.injEq] at heq
          have hq : probe q = false := hpre q (List.mem_cons_self q pre2)
          rw [← heq.1] at hq
          rw [hq] at hx
          exact absurd hx (by simp)
    · have hx2 : probe x = false := by simpa using hx
      rw [show selectTrunk probe (x :: older) = selectTrunk probe older by
        simp [selectTrunk, hx2]]
      rw [ih]
      constructor
      · rintro ⟨pre, post, heq, hpp, hpre⟩
        refine ⟨x :: pre, post, by rw [heq, List.cons_append], hpp, ?_⟩
        intro q hq
        rcases List.mem_cons.mp hq with rfl | hq
        · exact hx2
        · exact hpre q hq
      · rintro ⟨pre, post, heq, hpp, hpre⟩
        cases pre with
        | nil =>
          simp only [List.nil_append, List.cons.injEq] at heq
          rw [heq.1] at hx2
          rw [hx2] at hpp
          exact absurd hpp (by simp)
        | cons q pre2 =>
          rw [List.cons_append, List.cons.injEq] at heq
          refine ⟨pre2, post, heq.2, hpp, ?_⟩
          intro q2 hq2
          exact hpre q2 (List.mem_cons_of_mem q hq2)

/-! ### Inversion of a successful selection run -/

theorem select_releases_ok_inv {tags : List (String × Handle)}
    {s d : List (Semver × Handle)}
    (h : select_releases tags = .ok (s, d)) :
    s = ((group_releases_by_minor_versions (parseTags tags)).filter
        (fun g => g.1.2 % 2 == 0)).filterMap (fun g => g.2.getLast?) ∧
      ∃ dm, d = [dm] ∧
        (((group_releases_by_minor_versions (parseTags tags)).filter
          (fun g => !(g.1.2 % 2 == 0))).filterMap
            (fun g => g.2.getLast?)).getLast? = some dm := by
  rw [select_releases_eq] at h
  cases hl : (((group_releases_by_minor_versions (parseTags tags)).filter
      (fun g => !(g.1.2 % 2 == 0))).filterMap
        (fun g => g.2.getLast?)).getLast? with
  | none =>
    rw [hl] at h
    exact absurd h (by simp)
  | some dm =>
    rw [hl] at h
    have h2 := h
    injection h2 with h3
    rw [Prod.mk.injEq] at h3
    exact ⟨h3.1.symm, dm, h3.2.symm, rfl⟩

/-! ### Claim theorems -/

/-- C1 (counterexample): the claim that selection walks a stable line's
candidates newest-first calling the artifact probe and resolves to the
first probe success is false on the code.  With line 1.2 candidates
1.2.0, 1.2.1, 1.2.2 and a probe that fails exactly on 1.2.2, the
spec-side walk resolves 1.2 to 1.2.1, but `select_releases` resolves it
to 1.2.2: it never consults any probe and takes the newest release
unconditionally. -/
theorem C1_counterexample :
    select_releases [("1.2.0", 0), ("1.2.1", 1), ("1.2.2", 2), ("1.3.0", 3)] =
      .ok ([(⟨1, 2, 2⟩, 2)], [(⟨1, 3, 0⟩, 3)]) ∧
    specFirstSuccessNewestFirst (fun v => !(v == ⟨1, 2, 2⟩))
      [(⟨1, 2, 2⟩, 2), (⟨1, 2, 1⟩, 1), (⟨1, 2, 0⟩, 0)] = some (⟨1, 2, 1⟩, 1) ∧
    ((⟨1, 2, 2⟩, 2) : Semver × Handle) ≠ (⟨1, 2, 1⟩, 1) := by
  refine ⟨by decide, by decide, by decide⟩

/-- C1 (amended): when `select_releases` succeeds, every entry of the
stable list is a parsed release with an even minor version that is the
newest (by the code's `__lt__` order) among all parsed releases of its
`(major, minor)` line — chosen unconditionally, with no artifact probe
consulted — and every even-minor parsed release has its line
represented. -/
theorem C1_theorem (tags : List (String × Handle))
    (s d : List (Semver × Handle))
    (h : select_releases tags = .ok (s, d)) :
    (∀ x ∈ s, x ∈ parseTags tags ∧ x.1.minor % 2 = 0 ∧
      ∀ y ∈ parseTags tags, lineOf y.1 = lineOf x.1 → svLe y.1 x.1) ∧
    ∀ y ∈ parseTags tags, y.1.minor % 2 = 0 →
      ∃ x ∈ s, lineOf x.1 = lineOf y.1 := by
  obtain ⟨hs, _⟩ := select_releases_ok_inv h
  subst hs
  constructor
  · intro x hx
    exact stable_entry_spec tags hx
  · intro y hy hye
    exact stable_covers tags hy hye

/-- Witness for C1: at the counterexample input the selected stable
release 1.2.2 dominates the line member 1.2.0. -/
theorem C1_witness : svLe ⟨1, 2, 0⟩ ⟨1, 2, 2⟩ :=
  ((C1_theorem [("1.2.0", 0), ("1.2.1", 1), ("1.2.2", 2), ("1.3.0", 3)]
      [(⟨1, 2, 2⟩, 2)] [(⟨1, 3, 0⟩, 3)] (by decide)).1
    (⟨1, 2, 2⟩, 2) (by decide)).2.2 (⟨1, 2, 0⟩, 0) (by decide) (by decide)

/-- C2 (counterexample): when a selected release has no successful
artifact (no `docs.tgz` asset), the run does not raise any
UnresolvedLineError — the code defines no such error — and it does not
abort with no partial output: it aborts with the uncaught
FileNotFoundError of `tarfile.open`, after the docs of earlier releases
(here 1.2.1) have already been extracted into the output directory. -/
theorem C2_counterexample :
    publishAll [(⟨1, 2, 1⟩, ["docs.tgz"]), (⟨2, 0, 0⟩, [])] [] [] =
      (([⟨1, 2, 1⟩], [⟨1, 2, 1⟩]), some (.fileNotFound ⟨2, 0, 0⟩)) ∧
    ([⟨1, 2, 1⟩] : List Semver) ≠ [] := by
  refine ⟨by decide, by decide⟩

/-- C2 (amended): if the publish loop reaches a release with no
`docs.tgz` asset and no stale download in the work directory, the run
aborts with the uncaught FileNotFoundError of `tarfile.open` — not an
UnresolvedLineError, which the code does not define — and the output
directory keeps everything extracted for the releases processed before
it: partial output persists. -/
theorem C2_theorem (good : List (Semver × List String)) (v : Semver)
    (assets : List String) (rest : List (Semver × List String))
    (work out : List Semver)
    (hgood : ∀ g ∈ good, "docs.tgz" ∈ g.2 ∨ g.1 ∈ work)
    (hna : "docs.tgz" ∉ assets) (hvw : v ∉ work)
    (hvg : v ∉ good.map Prod.fst) :
    ∃ work2, publishAll (good ++ (v, assets) :: rest) work out =
      ((work2, out ++ good.map Prod.fst), some (.fileNotFound v)) :=
  publishAll_abort good v assets rest work out hgood hna hvw hvg

/-- Witness for C2: the loop on releases 1.2.1 (with asset) and 2.0.0
(without) aborts with fileNotFound 2.0.0 after extracting 1.2.1. -/
theorem C2_witness :
    ∃ work2, publishAll [(⟨1, 2, 1⟩, ["docs.tgz"]), (⟨2, 0, 0⟩, [])] [] [] =
      ((work2, [⟨1, 2, 1⟩]), some (.fileNotFound ⟨2, 0, 0⟩)) :=
  C2_theorem [(⟨1, 2, 1⟩, ["docs.tgz"])] ⟨2, 0, 0⟩ [] [] [] []
    (by decide) (by decide) (by decide) (by decide)

/-- C3 (counterexample): two distinct tags, `1.2.3` and `01.2.3`, parse
to the identical VersionId, yet catalog construction raises no
DuplicateVersionError: the whole selection run succeeds, and the
duplicate is silently overwritten — the later tag's handle 2 wins over
handle 1. -/
theorem C3_counterexample :
    Semver.from_string ("1.2.3") = .ok ⟨1, 2, 3⟩ ∧
    Semver.from_string ("01.2.3") = .ok ⟨1, 2, 3⟩ ∧
    ("1.2.3" : String) ≠ "01.2.3" ∧
    select_releases [("1.2.3", 1), ("01.2.3", 2), ("1.3.0", 3)] =
      .ok ([(⟨1, 2, 3⟩, 2)], [(⟨1, 3, 0⟩, 3)]) ∧
    lookupDict (parseTags [("1.2.3", 1), ("01.2.3", 2)]) ⟨1, 2, 3⟩ = some 2 := by
  refine ⟨by decide, by decide, by decide, by decide, by decide⟩

/-- C3 (amended): duplicate VersionIds are silently collapsed, never
reported: the releases dict maps each version to the handle of the
last input tag that parsed to it. -/
theorem C3_theorem (tags : List (String × Handle)) (v : Semver) :
    lookupDict (parseTags tags) v =
      (((parsedList tags).filter (fun p => p.1 == v)).getLast?).map Prod.snd :=
  parseTags_last_wins tags v

/-- C4 (counterexample): the string `1x2x3` contains no dot-separated
triple, yet parsing succeeds (the regex dots are unescaped and match
any character), contradicting the claim that every non-dot-separated
string fails with a ParseError. -/
theorem C4_counterexample :
    Semver.from_string ("1x2x3") = .ok ⟨1, 2, 3⟩ := by decide

/-- C4 (amended): version parsing succeeds exactly on strings of the
form digits-separator-digits-separator-digits where each separator is
one arbitrary non-newline character (the unescaped regex dots): genuine
dotted triples are accepted, but so are strings like `1x2x3`; every
string not of this shape fails with a VersionError, with no partial
match silently truncated (the regex is a fullmatch). -/
theorem C4_theorem (s : String) :
    (∃ v, Semver.from_string s = .ok v) ↔ semverShape s.data := by
  rw [← matchSemver_isSome_iff]
  unfold Semver.from_string Semver.match_semver_string
  cases h : matchSemver s.data with
  | none => simp
  | some abc =>
    obtain ⟨a, b, c⟩ := abc
    simp

/-- C5: the development snapshot returned by `select_releases` is a
single candidate: the greatest parsed odd-minor release, which lies in
the highest-numbered development line; candidates of every other
development line cannot affect it. -/
theorem C5_theorem (tags : List (String × Handle))
    (s d : List (Semver × Handle))
    (h : select_releases tags = .ok (s, d)) :
    ∃ dm, d = [dm] ∧ dm ∈ parseTags tags ∧ dm.1.minor % 2 = 1 ∧
      ∀ y ∈ parseTags tags, y.1.minor % 2 = 1 → svLe y.1 dm.1 := by
  obtain ⟨_, dm, hd, hlast⟩ := select_releases_ok_inv h
  obtain ⟨h1, h2, h3⟩ := dev_entry_spec tags hlast
  exact ⟨dm, hd, h1, h2, h3⟩

/-- Witness for C5: with development lines 1.1 and 1.3 present, the
selected snapshot is 1.3.0, the maximum odd-minor release. -/
theorem C5_witness :
    ∃ dm, ([((⟨1, 3, 0⟩ : Semver), (2 : Handle))] = [dm]) ∧
      dm ∈ parseTags [("1.1.0", 0), ("1.1.9", 1), ("1.3.0", 2), ("1.2.0", 3)] ∧
      dm.1.minor % 2 = 1 ∧
      ∀ y ∈ parseTags [("1.1.0", 0), ("1.1.9", 1), ("1.3.0", 2), ("1.2.0", 3)],
        y.1.minor % 2 = 1 → svLe y.1 dm.1 :=
  C5_theorem [("1.1.0", 0), ("1.1.9", 1), ("1.3.0", 2), ("1.2.0", 3)]
    [(⟨1, 2, 0⟩, 3)] [(⟨1, 3, 0⟩, 2)] (by decide)

/-- C6 (counterexample): with two distinct tags parsing to the same
VersionId, permuting the input changes the selection result (last write
wins in the dict), so catalog construction and selection are not
order-independent as claimed. -/
theorem C6_counterexample :
    ([("1.2.3", 1), ("01.2.3", 2), ("1.3.0", 3)] : List (String × Handle)).Perm
      [("01.2.3", 2), ("1.2.3", 1), ("1.3.0", 3)] ∧
    select_releases [("1.2.3", 1), ("01.2.3", 2), ("1.3.0", 3)] ≠
      select_releases [("01.2.3", 2), ("1.2.3", 1), ("1.3.0", 3)] := by
  constructor
  · exact List.Perm.swap ("01.2.3", 2) ("1.2.3", 1) [("1.3.0", 3)]
  · decide

/-- C6 (amended): provided no two input tags parse to the identical
VersionId, both the grouped catalog and the full selection result are
identical for any two permutations of the input tag set. -/
theorem C6_theorem (tags1 tags2 : List (String × Handle))
    (hperm : tags1.Perm tags2)
    (hnodup : ((parsedList tags1).map Prod.fst).Nodup) :
    group_releases_by_minor_versions (parseTags tags1) =
      group_releases_by_minor_versions (parseTags tags2) ∧
      select_releases tags1 = select_releases tags2 :=
  select_releases_order_free hperm hnodup

/-- Witness for C6: shuffling a duplicate-free tag set leaves the
catalog and the selection unchanged. -/
theorem C6_witness :
    group_releases_by_minor_versions (parseTags [("1.2.0", 0), ("1.3.0", 1)]) =
      group_releases_by_minor_versions (parseTags [("1.3.0", 1), ("1.2.0", 0)]) ∧
      select_releases [("1.2.0", 0), ("1.3.0", 1)] =
        select_releases [("1.3.0", 1), ("1.2.0", 0)] :=
  C6_theorem [("1.2.0", 0), ("1.3.0", 1)] [("1.3.0", 1), ("1.2.0", 0)]
    (List.Perm.swap ("1.3.0", 1) ("1.2.0", 0) []) (by decide)

/-- C7: parsing a genuinely dot-separated triple of digit strings
(leading zeros allowed) yields exactly the numeric triple, and the
code's comparison agrees with lexicographic order on the numeric tuples
(major, minor, patch). -/
theorem C7_theorem (da db dc : List Char)
    (h1 : da ≠ []) (h2 : ∀ c ∈ da, c.isDigit = true)
    (h3 : db ≠ []) (h4 : ∀ c ∈ db, c.isDigit = true)
    (h5 : dc ≠ []) (h6 : ∀ c ∈ dc, c.isDigit = true) :
    Semver.from_string ⟨da ++ '.' :: (db ++ '.' :: dc)⟩ =
      .ok ⟨natOfDigits da, natOfDigits db, natOfDigits dc⟩ ∧
    ∀ u v : Semver, Semver.lt u v = true ↔
      Prod.Lex (· < ·) (Prod.Lex (· < ·) (· < ·))
        (u.major, u.minor, u.patch) (v.major, v.minor, v.patch) := by
  constructor
  · unfold Semver.from_string Semver.match_semver_string
    rw [show (String.mk (da ++ '.' :: (db ++ '.' :: dc))).data =
      da ++ '.' :: (db ++ '.' :: dc) from rfl]
    rw [matchSemver_dotted da db dc h1 h2 h3 h4 h5 h6]
  · intro u v
    rw [Semver.lt_iff, Prod.lex_def, Prod.lex_def]

/-- Witness for C7: `01.2.3` parses to (1, 2, 3), and the comparison of
two concrete versions matches the lexicographic tuple order. -/
theorem C7_witness :
    Semver.from_string ("01.2.3") = .ok ⟨1, 2, 3⟩ ∧
    ∀ u v : Semver, Semver.lt u v = true ↔
      Prod.Lex (· < ·) (Prod.Lex (· < ·) (· < ·))
        (u.major, u.minor, u.patch) (v.major, v.minor, v.patch) :=
  C7_theorem ['0', '1'] ['2'] ['3'] (by decide) (by decide) (by decide)
    (by decide) (by decide) (by decide)

/-- C8: the artifact probe of `migrate-assets.py` answers true exactly
when some status named `docs` on the commit has status exactly
`success`; on every other input (pending, failed, absent) it answers
false, and being a total function it never raises. -/
theorem C8_theorem (statuses : List CommitStatus) :
    hasSuccessfulArtifact statuses = true ↔
      ∃ j ∈ statuses, j.name = "docs" ∧ j.status = "success" :=
  get_doc_job_isSome_iff statuses

/-- C9: trunk resolution (modelled from the spec — no trunk-walk code
exists under src/) always terminates on the explicit backward history
chain: it fails with UnresolvedTrunkError exactly when no point of the
chain probes successfully, and it returns point p exactly when p is the
first point of the chain, walking strictly backward from the head,
whose probe succeeds. -/
theorem C9_theorem (probe : Nat → Bool) (history : List Nat) :
    (selectTrunk probe history = .error .unresolvedTrunk ↔
      ∀ h ∈ history, probe h = false) ∧
    ∀ p, selectTrunk probe history = .ok p ↔
      ∃ pre post, history = pre ++ p :: post ∧ probe p = true ∧
        ∀ q ∈ pre, probe q = false :=
  ⟨selectTrunk_error_iff probe history,
    fun p => selectTrunk_ok_iff probe history p⟩

/-- C10: when at least one tag parses but no parsed release has an odd
minor version, `select_releases` raises the uncaught IndexError of
`dev_snapshots[-1]` instead of returning the stable selections. -/
theorem C10_theorem (tags : List (String × Handle))
    (_hsome : ∃ t ∈ tags, (parseRelease t.1).isSome = true)
    (hall : ∀ y ∈ parseTags tags, y.1.minor % 2 = 0) :
    select_releases tags = .error .indexError :=
  no_dev_indexError tags hall

/-- Witness for C10: a lone stable tag 1.2.0 makes the run crash with
IndexError. -/
theorem C10_witness : select_releases [("1.2.0", 0)] = .error .indexError :=
  C10_theorem [("1.2.0", 0)] ⟨("1.2.0", 0), by decide, by decide⟩ (by decide)
